import Mathlib

/-!
# SiaFile persistence layer: formal model and verification

This development models the on-disk SiaFile layout and its mutation
protocol of the `modules/renter/siafile` package (page-addressed
container with metadata header, host public-key table and chunk table;
WAL insert/delete updates; create/load/save-header/save-chunk/rename/
delete lifecycle operations), and proves the claims of the
specification against that model.

The implementation sources of the package are not part of the source
tree under verification; only its tests are.  Every definition below
whose doc comment starts with `Modelled from the spec:` is therefore a
model of the missing implementation, written from the specification's
words and anchored on the behavior pinned down by the package's tests
(`persist_test.go` and the marshaling tests).
-/

set_option linter.unusedVariables false

/-! ## Byte-level primitives -/

/-- Modelled from the spec: `PAGE_SIZE = 4096`, the fixed page size of the
on-disk layout. -/
def pageSize : Nat := 4096

/-- A byte is modelled as a natural number; encoders only produce values
below 256. -/
abbrev Byte := Nat

/-- A file-system path, modelled as its byte string. -/
abbrev FsPath := List Byte

/-- Little-endian fixed-width encoding of a natural number: `toLE w n`
produces exactly `w` bytes. -/
def toLE : Nat → Nat → List Byte
  | 0, _ => []
  | w + 1, n => n % 256 :: toLE w (n / 256)

/-- Little-endian decoding of a byte string. -/
def fromLE : List Byte → Nat
  | [] => 0
  | b :: bs => b % 256 + 256 * fromLE bs

@[simp] theorem toLE_length (w n : Nat) : (toLE w n).length = w := by
  induction w generalizing n with
  | zero => rfl
  | succ w ih => simp [toLE, ih]

theorem mod256_mod256 (n : Nat) : n % 256 % 256 = n % 256 :=
  Nat.mod_mod_of_dvd n (dvd_refl 256)

theorem fromLE_toLE (w n : Nat) : fromLE (toLE w n) = n % 256 ^ w := by
  induction w generalizing n with
  | zero => simp [toLE, fromLE, Nat.mod_one]
  | succ w ih =>
    simp only [toLE, fromLE, ih, mod256_mod256]
    have h256 : 0 < 256 := by norm_num
    have hpow : 0 < 256 ^ w := Nat.pos_pow_of_pos w h256
    -- n % 256 + 256 * (n / 256 % 256 ^ w) = n % (256 ^ (w+1))
    have hsplit : n % 256 ^ (w + 1) = n % 256 + 256 * (n / 256 % 256 ^ w) := by
      conv_lhs => rw [show (256 : Nat) ^ (w + 1) = 256 * 256 ^ w by ring]
      rw [Nat.mod_mul]
    omega

theorem fromLE_toLE_of_lt {w n : Nat} (h : n < 256 ^ w) :
    fromLE (toLE w n) = n := by
  rw [fromLE_toLE, Nat.mod_eq_of_lt h]

/-- Two-byte big-endian encoding of a 16-bit value (used for the
erasure-code parameters). -/
def toBE2 (n : Nat) : List Byte := [n / 256 % 256, n % 256]

/-- Two-byte big-endian decoding. -/
def fromBE2 (bs : List Byte) : Nat :=
  match bs with
  | [hi, lo] => (hi % 256) * 256 + lo % 256
  | _ => 0

theorem fromBE2_toBE2 {n : Nat} (h : n < 2 ^ 16) : fromBE2 (toBE2 n) = n := by
  simp only [toBE2, fromBE2, mod256_mod256]
  omega

/-- Encoding of a signed 64-bit integer as its two's-complement byte
string (little-endian). -/
def encInt64 (i : Int) : List Byte := toLE 8 (i % (2 ^ 64)).toNat

/-- Decoding of a two's-complement 64-bit integer. -/
def decInt64 (bs : List Byte) : Int :=
  let n := fromLE bs
  if n < 2 ^ 63 then (n : Int) else (n : Int) - 2 ^ 64

theorem decInt64_encInt64 {i : Int} (h1 : -(2 ^ 63) ≤ i) (h2 : i < 2 ^ 63) :
    decInt64 (encInt64 i) = i := by
  have hpos : (0 : Int) < 2 ^ 64 := by norm_num
  have hlo : 0 ≤ i % 2 ^ 64 := Int.emod_nonneg i (by norm_num)
  have hhi : i % 2 ^ 64 < 2 ^ 64 := Int.emod_lt_of_pos i hpos
  have hdvd : (2 ^ 64 : Int) ∣ i - i % 2 ^ 64 := Int.dvd_sub_of_emod_eq rfl
  have htn : ((i % 2 ^ 64).toNat : Int) = i % 2 ^ 64 := Int.toNat_of_nonneg hlo
  have htlt : (i % 2 ^ 64).toNat < 256 ^ 8 := by
    have : ((256 : Nat) ^ 8 : Int) = 2 ^ 64 := by norm_num
    omega
  unfold decInt64 encInt64
  rw [fromLE_toLE_of_lt htlt]
  obtain ⟨k, hk⟩ := hdvd
  simp only
  split
  · omega
  · omega

/-! ## Parsing primitives

All decoders are written as prefix parsers over a byte stream, returning
the parsed value together with the unconsumed rest of the stream. -/

/-- `readN n bs` consumes exactly `n` bytes from the stream `bs`. -/
def readN (n : Nat) (bs : List Byte) : Option (List Byte × List Byte) :=
  if n ≤ bs.length then some (bs.take n, bs.drop n) else none

theorem readN_exact {n : Nat} (xs rest : List Byte) (h : xs.length = n) :
    readN n (xs ++ rest) = some (xs, rest) := by
  subst h
  simp [readN, List.take_left, List.drop_left]

/-- Consume an 8-byte little-endian unsigned integer. -/
def pU64 (bs : List Byte) : Option (Nat × List Byte) :=
  (readN 8 bs).map fun p => (fromLE p.1, p.2)

theorem pU64_enc {n : Nat} (rest : List Byte) (h : n < 2 ^ 64) :
    pU64 (toLE 8 n ++ rest) = some (n, rest) := by
  have h' : n < 256 ^ 8 := by norm_num at h ⊢; omega
  rw [pU64, readN_exact _ _ (toLE_length 8 n), Option.map_some']
  rw [fromLE_toLE_of_lt h']

/-- Consume a 4-byte little-endian unsigned integer. -/
def pU32 (bs : List Byte) : Option (Nat × List Byte) :=
  (readN 4 bs).map fun p => (fromLE p.1, p.2)

theorem pU32_enc {n : Nat} (rest : List Byte) (h : n < 2 ^ 32) :
    pU32 (toLE 4 n ++ rest) = some (n, rest) := by
  have h' : n < 256 ^ 4 := by norm_num at h ⊢; omega
  rw [pU32, readN_exact _ _ (toLE_length 4 n), Option.map_some']
  rw [fromLE_toLE_of_lt h']

/-- Consume a single byte as an unsigned integer. -/
def pU8 (bs : List Byte) : Option (Nat × List Byte) :=
  (readN 1 bs).map fun p => (fromLE p.1, p.2)

theorem pU8_enc {n : Nat} (rest : List Byte) (h : n < 2 ^ 8) :
    pU8 (toLE 1 n ++ rest) = some (n, rest) := by
  have h' : n < 256 ^ 1 := by norm_num at h ⊢; omega
  rw [pU8, readN_exact _ _ (toLE_length 1 n), Option.map_some']
  rw [fromLE_toLE_of_lt h']

/-- Consume an 8-byte two's-complement signed integer. -/
def pI64 (bs : List Byte) : Option (Int × List Byte) :=
  (readN 8 bs).map fun p => (decInt64 p.1, p.2)

theorem pI64_enc {i : Int} (rest : List Byte) (h1 : -(2 ^ 63) ≤ i)
    (h2 : i < 2 ^ 63) : pI64 (encInt64 i ++ rest) = some (i, rest) := by
  have hlen : (encInt64 i).length = 8 := toLE_length 8 _
  rw [pI64, readN_exact _ _ hlen, Option.map_some']
  rw [decInt64_encInt64 h1 h2]

/-- Length-prefixed byte string: an 8-byte little-endian length followed
by the raw bytes. -/
def encBytes (d : List Byte) : List Byte := toLE 8 d.length ++ d

/-- Consume a length-prefixed byte string. -/
def pBytes (bs : List Byte) : Option (List Byte × List Byte) :=
  match pU64 bs with
  | none => none
  | some (n, bs') => readN n bs'

theorem pBytes_enc {d : List Byte} (rest : List Byte) (h : d.length < 2 ^ 64) :
    pBytes (encBytes d ++ rest) = some (d, rest) := by
  rw [encBytes, List.append_assoc, pBytes, pU64_enc _ h]
  exact readN_exact d rest rfl

@[simp] theorem encBytes_length (d : List Byte) :
    (encBytes d).length = 8 + d.length := by
  simp [encBytes]

/-! ## File contents as byte lists -/

/-- `readRange c off n` returns the bytes of `c` in `[off, off + n)`,
truncated at end-of-file (a short read returns fewer bytes). -/
def readRange (c : List Byte) (off n : Nat) : List Byte :=
  (c.drop off).take n

/-- Modelled from the spec: the effect of the WAL `insert(path, index,
data)` update on one file's contents: write `data` at byte offset
`index`, extending the file with zero bytes if the write starts past the
current end, and truncating nothing. Writing zero bytes leaves the file
unchanged. -/
def writeAtBytes (c : List Byte) (index : Nat) (data : List Byte) : List Byte :=
  if data.isEmpty then c
  else
    (c ++ List.replicate (index + data.length - c.length) 0).take index
      ++ data ++ c.drop (index + data.length)

theorem writeAtBytes_append {c : List Byte} {index : Nat} (data : List Byte)
    (hle : c.length ≤ index) (hne : data ≠ []) :
    writeAtBytes c index data = c ++ List.replicate (index - c.length) 0 ++ data := by
  have hdata : data.isEmpty = false := by
    cases data with
    | nil => exact absurd rfl hne
    | cons a l => rfl
  rw [writeAtBytes, hdata]
  simp only [Bool.false_eq_true, if_false]
  have hdrop : c.drop (index + data.length) = [] := by
    apply List.drop_eq_nil_of_le; omega
  rw [hdrop, List.append_nil]
  have htake : (c ++ List.replicate (index + data.length - c.length) 0).take index
      = c ++ List.replicate (index - c.length) 0 := by
    rw [List.take_append_eq_append_take]
    have h1 : c.take index = c := List.take_of_length_le hle
    rw [h1, List.take_replicate]
    congr 1
    have hd : data.length ≠ 0 := by
      cases data with
      | nil => exact absurd rfl hne
      | cons a l => simp
    congr 1
    omega
  rw [htake, List.append_assoc]

theorem writeAtBytes_length {c : List Byte} {index : Nat} {data : List Byte}
    (hne : data ≠ []) :
    (writeAtBytes c index data).length = max c.length (index + data.length) := by
  have hdata : data.isEmpty = false := by
    cases data with
    | nil => exact absurd rfl hne
    | cons a l => rfl
  rw [writeAtBytes, hdata]
  simp only [Bool.false_eq_true, if_false]
  simp [List.length_take, List.length_append, List.length_replicate, List.length_drop]
  omega

theorem readRange_append_exact (a b : List Byte) (n : Nat) (h : b.length = n) :
    readRange (a ++ b) a.length n = b := by
  rw [readRange, List.drop_left, ← h, List.take_length]

theorem readRange_shift (a b : List Byte) (off n : Nat) :
    readRange (a ++ b) (a.length + off) n = readRange b off n := by
  rw [readRange, readRange, ← List.drop_drop, List.drop_left]

/-! ## Data model -/

/-- Modelled from the spec: the in-memory erasure coder is a tagged
variant; the only implemented codec is Reed-Solomon with
`{dataPieces, parityPieces}` parameters. -/
inductive ErasureCoder where
  | rsCode (dataPieces parityPieces : Nat)
deriving DecidableEq, Repr

/-- `NumPieces` of an erasure coder: data plus parity pieces. -/
def ErasureCoder.numPieces : ErasureCoder → Nat
  | .rsCode d p => d + p

/-- `MinPieces` of an erasure coder: the data pieces. -/
def ErasureCoder.minPieces : ErasureCoder → Nat
  | .rsCode d _ => d

/-- Modelled from the spec: the 16-byte ASCII erasure-code type
specifier `"ReedSolomon"`, null-padded. -/
def ecReedSolomon : List Byte :=
  [82, 101, 101, 100, 83, 111, 108, 111, 109, 111, 110, 0, 0, 0, 0, 0]

/-- Modelled from the spec: `marshalErasureCoder` returns the 16-byte
type specifier and the fixed 4-byte `{uint16 data, uint16 parity}`
big-endian parameter block. -/
def marshalErasureCoder : ErasureCoder → List Byte × List Byte
  | .rsCode d p => (ecReedSolomon, toBE2 d ++ toBE2 p)

/-- Modelled from the spec: `unmarshalErasureCoder` rejects an unknown
type specifier with a decode error (`none`). -/
def unmarshalErasureCoder (ecType ecParams : List Byte) : Option ErasureCoder :=
  if ecType = ecReedSolomon then
    match ecParams with
    | [dHi, dLo, pHi, pLo] =>
      some (.rsCode (fromBE2 [dHi, dLo]) (fromBE2 [pHi, pLo]))
    | _ => none
  else none

/-- Well-formedness of erasure-coder parameters: both fit in 16 bits. -/
def ErasureCoder.WF : ErasureCoder → Prop
  | .rsCode d p => d < 2 ^ 16 ∧ p < 2 ^ 16

instance : DecidablePred ErasureCoder.WF := by
  intro ec; cases ec; unfold ErasureCoder.WF; infer_instance

theorem unmarshal_marshal_erasureCoder {ec : ErasureCoder} (h : ec.WF) :
    unmarshalErasureCoder (marshalErasureCoder ec).1 (marshalErasureCoder ec).2
      = some ec := by
  obtain ⟨d, p⟩ := ec
  obtain ⟨hd, hp⟩ := h
  simp only [marshalErasureCoder, unmarshalErasureCoder, toBE2,
    List.cons_append, List.nil_append, if_pos rfl, fromBE2]
  have e1 : d / 256 % 256 % 256 * 256 + d % 256 % 256 = d := by omega
  have e2 : p / 256 % 256 % 256 * 256 + p % 256 % 256 = p := by omega
  rw [e1, e2, if_pos trivial]

/-- A piece of a chunk: the index of the host storing it in the file's
host public-key table, and the Merkle root identifying the sector. -/
structure Piece where
  hostIndex : Nat
  merkleRoot : List Byte
deriving DecidableEq, Repr

/-- `marshaledPieceSize`: fixed on-disk width of one piece record: a
4-byte piece index, a 4-byte host-table index and a 32-byte Merkle
root. -/
def marshaledPieceSize : Nat := 4 + 4 + 32

/-- Modelled from the spec: `marshalPiece` appends the fixed-width record
of `piece` stored at piece index `pieceIndex` to `buf`. -/
def marshalPiece (buf : List Byte) (pieceIndex : Nat) (piece : Piece) : List Byte :=
  buf ++ toLE 4 pieceIndex ++ toLE 4 piece.hostIndex ++ piece.merkleRoot

/-- Modelled from the spec: `unmarshalPiece` decodes one fixed-width
piece record, returning the piece index and the piece. -/
def unmarshalPiece (bs : List Byte) : Option (Nat × Piece) :=
  match readN 4 bs with
  | none => none
  | some (pi, bs1) =>
    match readN 4 bs1 with
    | none => none
    | some (hi, bs2) =>
      match readN 32 bs2 with
      | none => none
      | some (root, _) => some (fromLE pi, ⟨fromLE hi, root⟩)

/-- Well-formedness of a piece: the host index fits in 32 bits and the
Merkle root is 32 bytes. -/
def Piece.WF (p : Piece) : Prop :=
  p.hostIndex < 2 ^ 32 ∧ p.merkleRoot.length = 32

instance : DecidablePred Piece.WF := by
  intro p; unfold Piece.WF; infer_instance

@[simp] theorem marshalPiece_length (buf : List Byte) (i : Nat) {p : Piece}
    (h : p.merkleRoot.length = 32) :
    (marshalPiece buf i p).length = buf.length + marshaledPieceSize := by
  simp [marshalPiece, marshaledPieceSize, h]

theorem unmarshalPiece_enc {i : Nat} {p : Piece} (rest : List Byte)
    (hi : i < 2 ^ 32) (hp : p.WF) :
    unmarshalPiece (marshalPiece [] i p ++ rest) = some (i, p) := by
  obtain ⟨hhost, hroot⟩ := hp
  have hi' : i < 256 ^ 4 := by norm_num at hi ⊢; omega
  have hhost' : p.hostIndex < 256 ^ 4 := by norm_num at hhost ⊢; omega
  simp only [marshalPiece, List.nil_append, List.append_assoc]
  simp only [unmarshalPiece, readN_exact _ _ (toLE_length 4 i),
    readN_exact _ _ (toLE_length 4 p.hostIndex), readN_exact _ _ hroot,
    fromLE_toLE_of_lt hi', fromLE_toLE_of_lt hhost']

/-- A chunk: an ordered sequence of per-piece-index lists of pieces (one
slot per erasure-coded piece index). -/
structure Chunk where
  pieces : List (List Piece)
deriving DecidableEq, Repr

/-- Total number of pieces stored in a chunk across all piece indices. -/
def Chunk.numPieces (c : Chunk) : Nat := (c.pieces.map List.length).sum

/-- `marshaledChunkSize(numPieces) = 1 + numPieces * marshaledPieceSize`. -/
def marshaledChunkSize (numPieces : Nat) : Nat :=
  1 + numPieces * marshaledPieceSize

/-- `numChunkPagesRequired(numPieces) = marshaledChunkSize / PAGE_SIZE + 1`. -/
def numChunkPagesRequired (numPieces : Nat) : Nat :=
  marshaledChunkSize numPieces / pageSize + 1

/-- The empty chunk with one (empty) slot per piece index. -/
def emptyChunk (numPieces : Nat) : Chunk := ⟨List.replicate numPieces []⟩

/-- Serialization of the slots of a chunk starting at piece index `i`:
each stored piece becomes one fixed-width record tagged with its slot
index. -/
def marshalSlots : Nat → List (List Piece) → List Byte
  | _, [] => []
  | i, ps :: rest =>
    (ps.map fun p => marshalPiece [] i p).flatten ++ marshalSlots (i + 1) rest

/-- Modelled from the spec: `marshalChunk` writes one byte holding the
number of stored pieces followed by that many consecutive piece
records; exactly `1 + numPieces·marshaledPieceSize` bytes. -/
def marshalChunk (c : Chunk) : List Byte :=
  toLE 1 c.numPieces ++ marshalSlots 0 c.pieces

/-- Parse `n` consecutive fixed-width piece records. -/
def parsePieces : Nat → List Byte → Option (List (Nat × Piece))
  | 0, _ => some []
  | n + 1, bs =>
    match readN marshaledPieceSize bs with
    | none => none
    | some (rec, bs1) =>
      match unmarshalPiece rec with
      | none => none
      | some ip => (parsePieces n bs1).map (ip :: ·)

/-- Append a piece to the slot with the given index, failing when the
index is out of range. -/
def appendAt : List (List Piece) → Nat → Piece → Option (List (List Piece))
  | [], _, _ => none
  | s :: rest, 0, p => some ((s ++ [p]) :: rest)
  | s :: rest, i + 1, p => (appendAt rest i p).map (s :: ·)

/-- Distribute parsed piece records into their slots, in order. -/
def insertRecords : List (Nat × Piece) → List (List Piece) → Option (List (List Piece))
  | [], slots => some slots
  | (i, p) :: rest, slots =>
    match appendAt slots i p with
    | none => none
    | some slots' => insertRecords rest slots'

/-- Modelled from the spec: `unmarshalChunk` reads the one-byte piece
count and that many piece records, distributing them over `numPieces`
slots; trailing padding bytes are accepted and ignored. -/
def unmarshalChunk (numPieces : Nat) (bs : List Byte) : Option Chunk :=
  match pU8 bs with
  | none => none
  | some (count, bs1) =>
    match parsePieces count bs1 with
    | none => none
    | some recs =>
      match insertRecords recs (List.replicate numPieces []) with
      | none => none
      | some slots => some ⟨slots⟩

/-- The records of a chunk's slots starting at slot index `k`, in
serialization order. -/
def slotRecords : Nat → List (List Piece) → List (Nat × Piece)
  | _, [] => []
  | i, ps :: rest => (ps.map fun p => (i, p)) ++ slotRecords (i + 1) rest

/-- Concatenation of the fixed-width encodings of a record list. -/
def encodeRecords (rs : List (Nat × Piece)) : List Byte :=
  (rs.map fun r => marshalPiece [] r.1 r.2).flatten

theorem marshalSlots_eq_encodeRecords (k : Nat) (c : List (List Piece)) :
    marshalSlots k c = encodeRecords (slotRecords k c) := by
  induction c generalizing k with
  | nil => rfl
  | cons ps rest ih =>
    simp only [marshalSlots, slotRecords, encodeRecords, List.map_append,
      List.flatten_append, List.map_map, ih]
    rfl

theorem slotRecords_length (k : Nat) (c : List (List Piece)) :
    (slotRecords k c).length = (c.map List.length).sum := by
  induction c generalizing k with
  | nil => rfl
  | cons ps rest ih => simp [slotRecords, ih]

theorem slotRecords_mem {k : Nat} {c : List (List Piece)} {r : Nat × Piece}
    (h : r ∈ slotRecords k c) :
    r.1 < k + c.length ∧ ∃ ps ∈ c, r.2 ∈ ps := by
  induction c generalizing k with
  | nil => simp [slotRecords] at h
  | cons ps rest ih =>
    simp only [slotRecords, List.mem_append, List.mem_map] at h
    rcases h with ⟨p, hp, rfl⟩ | h
    · exact ⟨by simp only [List.length_cons]; omega, ps, by simp, hp⟩
    · obtain ⟨h1, ps', hps', hr⟩ := ih h
      exact ⟨by simp only [List.length_cons]; omega, ps', by simp [hps'], hr⟩

theorem parsePieces_encodeRecords {rs : List (Nat × Piece)} (rest : List Byte)
    (hwf : ∀ r ∈ rs, r.1 < 2 ^ 32 ∧ r.2.WF) :
    parsePieces rs.length (encodeRecords rs ++ rest) = some rs := by
  induction rs generalizing rest with
  | nil => rfl
  | cons r rs ih =>
    obtain ⟨hi, hwfp⟩ := hwf r (by simp)
    have hlen : (marshalPiece [] r.1 r.2).length = marshaledPieceSize := by
      rw [marshalPiece_length [] r.1 hwfp.2]; rfl
    have henc : encodeRecords (r :: rs) = marshalPiece [] r.1 r.2 ++ encodeRecords rs := by
      simp [encodeRecords]
    have hup : unmarshalPiece (marshalPiece [] r.1 r.2) = some (r.1, r.2) := by
      have := unmarshalPiece_enc [] hi hwfp
      rwa [List.append_nil] at this
    simp only [List.length_cons, parsePieces, henc, List.append_assoc,
      readN_exact _ _ hlen, hup, ih rest (fun r hr => hwf r (by simp [hr]))]
    rfl

theorem appendAt_done (done : List (List Piece)) (q : List Piece)
    (tail : List (List Piece)) (p : Piece) :
    appendAt (done ++ q :: tail) done.length p = some (done ++ (q ++ [p]) :: tail) := by
  induction done with
  | nil => rfl
  | cons s done ih => simp [appendAt, ih]

theorem insertRecords_append (a b : List (Nat × Piece)) (s : List (List Piece)) :
    insertRecords (a ++ b) s =
      match insertRecords a s with
      | none => none
      | some s' => insertRecords b s' := by
  induction a generalizing s with
  | nil => rfl
  | cons r a ih =>
    obtain ⟨i, p⟩ := r
    simp only [List.cons_append, insertRecords]
    cases appendAt s i p with
    | none => rfl
    | some s' => exact ih s'

theorem insertRecords_slot (ps : List Piece) (done : List (List Piece))
    (q : List Piece) (tail : List (List Piece)) :
    insertRecords (ps.map fun p => (done.length, p)) (done ++ q :: tail)
      = some (done ++ (q ++ ps) :: tail) := by
  induction ps generalizing q with
  | nil => simp [insertRecords]
  | cons p ps ih =>
    simp only [List.map_cons, insertRecords, appendAt_done]
    rw [ih (q ++ [p])]
    simp

theorem insertRecords_slotRecords (c : List (List Piece))
    (done : List (List Piece)) :
    insertRecords (slotRecords done.length c)
        (done ++ List.replicate c.length []) = some (done ++ c) := by
  induction c generalizing done with
  | nil => simp [slotRecords, insertRecords]
  | cons ps rest ih =>
    simp only [slotRecords, List.length_cons, List.replicate_succ]
    rw [insertRecords_append]
    rw [insertRecords_slot ps done [] (List.replicate rest.length [])]
    simp only [List.nil_append]
    have h1 : done ++ ps :: List.replicate rest.length []
        = (done ++ [ps]) ++ List.replicate rest.length [] := by simp
    have h2 : done.length + 1 = (done ++ [ps]).length := by simp
    rw [h1, h2, ih (done ++ [ps])]
    simp

/-- Well-formedness of a chunk with respect to the erasure coder's
`numPieces`: one slot per piece index, every stored piece well-formed,
and the piece count fits the one-byte counter. -/
def Chunk.WF (c : Chunk) (np : Nat) : Prop :=
  c.pieces.length = np ∧ np < 2 ^ 32 ∧ c.numPieces < 2 ^ 8 ∧
    ∀ ps ∈ c.pieces, ∀ p ∈ ps, p.WF

instance (c : Chunk) (np : Nat) : Decidable (c.WF np) := by
  unfold Chunk.WF Piece.WF
  infer_instance

theorem encodeRecords_length {rs : List (Nat × Piece)}
    (h : ∀ r ∈ rs, r.2.merkleRoot.length = 32) :
    (encodeRecords rs).length = rs.length * marshaledPieceSize := by
  induction rs with
  | nil => rfl
  | cons r rs ih =>
    have h1 : (marshalPiece [] r.1 r.2).length = marshaledPieceSize := by
      rw [marshalPiece_length [] r.1 (h r (by simp))]; rfl
    simp only [encodeRecords, List.map_cons, List.flatten_cons,
      List.length_append, List.length_cons]
    rw [h1]
    have := ih (fun r hr => h r (by simp [hr]))
    simp only [encodeRecords] at this
    rw [this]
    ring

theorem unmarshalChunk_marshalChunk {c : Chunk} {np : Nat} (pad : List Byte)
    (h : c.WF np) :
    unmarshalChunk np (marshalChunk c ++ pad) = some c := by
  obtain ⟨hslots, hnp, hcount, hwf⟩ := h
  have hrecwf : ∀ r ∈ slotRecords 0 c.pieces, r.1 < 2 ^ 32 ∧ r.2.WF := by
    intro r hr
    obtain ⟨h1, ps, hps, hp⟩ := slotRecords_mem hr
    exact ⟨by omega, hwf ps hps _ hp⟩
  have hcnt : c.numPieces = (slotRecords 0 c.pieces).length := by
    rw [slotRecords_length]; rfl
  have hins : insertRecords (slotRecords 0 c.pieces) (List.replicate np [])
      = some c.pieces := by
    have h2 := insertRecords_slotRecords c.pieces []
    simp only [List.length_nil, List.nil_append] at h2
    rwa [hslots] at h2
  have hcount' : (slotRecords 0 c.pieces).length < 2 ^ 8 := hcnt ▸ hcount
  rw [marshalChunk, hcnt, marshalSlots_eq_encodeRecords, List.append_assoc]
  simp only [unmarshalChunk, pU8_enc _ hcount',
    parsePieces_encodeRecords pad hrecwf, hins]

theorem marshalChunk_length {c : Chunk} {np : Nat} (h : c.WF np) :
    (marshalChunk c).length = marshaledChunkSize c.numPieces := by
  obtain ⟨hslots, hnp, hcount, hwf⟩ := h
  have hroots : ∀ r ∈ slotRecords 0 c.pieces, r.2.merkleRoot.length = 32 := by
    intro r hr
    obtain ⟨h1, ps, hps, hp⟩ := slotRecords_mem hr
    exact (hwf ps hps _ hp).2
  have hcnt : c.numPieces = (slotRecords 0 c.pieces).length := by
    rw [slotRecords_length]; rfl
  simp only [marshalChunk, List.length_append, toLE_length,
    marshalSlots_eq_encodeRecords, encodeRecords_length hroots,
    marshaledChunkSize]
  rw [hcnt]

theorem marshalSlots_replicate_nil (k n : Nat) :
    marshalSlots k (List.replicate n []) = [] := by
  induction n generalizing k with
  | zero => rfl
  | succ n ih => simp [List.replicate_succ, marshalSlots, ih]

theorem emptyChunk_numPieces (np : Nat) : (emptyChunk np).numPieces = 0 := by
  induction np with
  | zero => rfl
  | succ n ih =>
    simp only [emptyChunk, Chunk.numPieces, List.replicate_succ, List.map_cons,
      List.sum_cons, List.length_nil] at *
    omega

theorem marshalChunk_emptyChunk (np : Nat) :
    marshalChunk (emptyChunk np) = [0] := by
  rw [marshalChunk, emptyChunk_numPieces]
  show toLE 1 0 ++ marshalSlots 0 (List.replicate np []) = [0]
  rw [marshalSlots_replicate_nil]
  rfl

theorem emptyChunk_WF {np : Nat} (h : np < 2 ^ 32) : (emptyChunk np).WF np := by
  refine ⟨by simp [emptyChunk], h, by rw [emptyChunk_numPieces]; norm_num, ?_⟩
  intro ps hps p hp
  simp only [emptyChunk, List.mem_replicate] at hps
  rw [hps.2] at hp
  simp at hp

/-! ## Host public-key table -/

/-- A typed public key: a 16-byte algorithm specifier plus the raw key
bytes. -/
structure SiaPublicKey where
  algorithm : List Byte
  key : List Byte
deriving DecidableEq, Repr

/-- One entry of the host public-key table: a typed public key and the
`Used` flag. -/
structure HostPublicKey where
  publicKey : SiaPublicKey
  used : Bool
deriving DecidableEq, Repr

/-- One byte encoding a boolean. -/
def encBool (b : Bool) : List Byte := [if b then 1 else 0]

/-- Consume a one-byte boolean. -/
def pBool (bs : List Byte) : Option (Bool × List Byte) :=
  match pU8 bs with
  | none => none
  | some (u, rest) => some (u == 1, rest)

theorem pBool_enc (b : Bool) (rest : List Byte) :
    pBool (encBool b ++ rest) = some (b, rest) := by
  cases b <;> simp [pBool, pU8, encBool, readN, fromLE]

/-- The body of one marshaled host-key table entry. -/
def marshalHostKey (e : HostPublicKey) : List Byte :=
  e.publicKey.algorithm ++ encBytes e.publicKey.key ++ encBool e.used

/-- Modelled from the spec: the host-key table is marshaled as a
length-prefixed sequence of length-prefixed entries; order is
preserved. -/
def marshalPubKeyTable (table : List HostPublicKey) : List Byte :=
  toLE 8 table.length ++ (table.map fun e => encBytes (marshalHostKey e)).flatten

/-- Parse the body of one entry. -/
def parseHostKey (bs : List Byte) : Option (HostPublicKey × List Byte) :=
  match readN 16 bs with
  | none => none
  | some (alg, bs1) =>
    match pBytes bs1 with
    | none => none
    | some (key, bs2) =>
      match pBool bs2 with
      | none => none
      | some (u, bs3) => some (⟨⟨alg, key⟩, u⟩, bs3)

/-- Parse `n` length-prefixed entries. -/
def parseHostKeys : Nat → List Byte → Option (List HostPublicKey)
  | 0, _ => some []
  | n + 1, bs =>
    match pBytes bs with
    | none => none
    | some (entryBytes, bs1) =>
      match parseHostKey entryBytes with
      | none => none
      | some (e, _) => (parseHostKeys n bs1).map (e :: ·)

/-- Modelled from the spec: `unmarshalPubKeyTable` decodes the
length-prefixed entry sequence, preserving order. -/
def unmarshalPubKeyTable (bs : List Byte) : Option (List HostPublicKey) :=
  match pU64 bs with
  | none => none
  | some (n, bs1) => parseHostKeys n bs1

/-- Well-formedness of one table entry: 16-byte algorithm specifier and
a key that fits its length prefix. -/
def HostPublicKey.WF (e : HostPublicKey) : Prop :=
  e.publicKey.algorithm.length = 16 ∧ e.publicKey.key.length < 2 ^ 32

instance : DecidablePred HostPublicKey.WF := by
  intro e; unfold HostPublicKey.WF; infer_instance

/-- Well-formedness of the table: bounded length, well-formed entries. -/
def PubKeyTableWF (table : List HostPublicKey) : Prop :=
  table.length < 2 ^ 64 ∧ ∀ e ∈ table, e.WF

instance : DecidablePred PubKeyTableWF := by
  intro t; unfold PubKeyTableWF; infer_instance

theorem parseHostKey_enc {e : HostPublicKey} (rest : List Byte) (h : e.WF) :
    parseHostKey (marshalHostKey e ++ rest) = some (e, rest) := by
  obtain ⟨halg, hkey⟩ := h
  have hkey' : e.publicKey.key.length < 2 ^ 64 := by omega
  simp only [marshalHostKey, List.append_assoc, parseHostKey,
    readN_exact _ _ halg, pBytes_enc _ hkey', pBool_enc]

theorem parseHostKeys_enc {table : List HostPublicKey} (rest : List Byte)
    (h : ∀ e ∈ table, e.WF) :
    parseHostKeys table.length
      ((table.map fun e => encBytes (marshalHostKey e)).flatten ++ rest)
      = some table := by
  induction table generalizing rest with
  | nil => rfl
  | cons e table ih =>
    have he := h e (by simp)
    have hlen : (marshalHostKey e).length < 2 ^ 64 := by
      obtain ⟨halg, hkey⟩ := he
      simp only [marshalHostKey, List.length_append, halg, encBytes_length,
        encBool]
      simp
      omega
    have hpk : parseHostKey (marshalHostKey e) = some (e, []) := by
      have := parseHostKey_enc [] he
      rwa [List.append_nil] at this
    simp only [List.length_cons, parseHostKeys, List.map_cons,
      List.flatten_cons, List.append_assoc, pBytes_enc _ hlen, hpk,
      ih rest (fun e he => h e (by simp [he]))]
    rfl

theorem unmarshalPubKeyTable_marshal {table : List HostPublicKey}
    (rest : List Byte) (h : PubKeyTableWF table) :
    unmarshalPubKeyTable (marshalPubKeyTable table ++ rest) = some table := by
  obtain ⟨hlen, hwf⟩ := h
  simp only [marshalPubKeyTable, List.append_assoc, unmarshalPubKeyTable,
    pU64_enc _ hlen, parseHostKeys_enc rest hwf]

/-- Length of one marshaled entry with its length prefix. -/
theorem entry_length {e : HostPublicKey} (h : e.WF) :
    (encBytes (marshalHostKey e)).length = 33 + e.publicKey.key.length := by
  obtain ⟨halg, hkey⟩ := h
  simp [marshalHostKey, halg, encBool]
  omega

/-- Length of the marshaled table when all keys have 32-byte key
material (the format used by the tests). -/
theorem marshalPubKeyTable_length_std {table : List HostPublicKey}
    (h : ∀ e ∈ table, e.WF ∧ e.publicKey.key.length = 32) :
    (marshalPubKeyTable table).length = 8 + 65 * table.length := by
  induction table with
  | nil => simp [marshalPubKeyTable]
  | cons e table ih =>
    obtain ⟨he, h32⟩ := h e (by simp)
    have := ih (fun e he => h e (by simp [he]))
    simp only [marshalPubKeyTable, List.length_append, toLE_length,
      List.map_cons, List.flatten_cons, entry_length he, h32,
      List.length_cons] at *
    omega

/-! ## Metadata -/

/-- The SiaFile header record, one per file.  Timestamps are signed
seconds since the epoch (second precision, which is what the on-disk
format stores). -/
structure Metadata where
  version : List Byte
  staticFileSize : Int
  masterKey : List Byte
  masterKeyType : List Byte
  fileMode : Nat
  staticPagesPerChunk : Nat
  staticErasureCode : ErasureCoder
  staticPieceSize : Nat
  siaPath : List Byte
  localPath : List Byte
  accessTime : Int
  changeTime : Int
  createTime : Int
  modTime : Int
  chunkOffset : Nat
  pubKeyTableOffset : Nat
  deleted : Bool
deriving DecidableEq, Repr

/-- Modelled from the spec: `marshalMetadata` encodes the header record
as a structured record with length prefixes on the variable-length
fields; fixed-width integers are 8-byte (or 4-byte/1-byte) little-endian
and timestamps are signed seconds since the epoch. -/
def marshalMetadata (md : Metadata) : List Byte :=
  md.version
  ++ encInt64 md.staticFileSize
  ++ encBytes md.masterKey
  ++ md.masterKeyType
  ++ toLE 4 md.fileMode
  ++ toLE 1 md.staticPagesPerChunk
  ++ (marshalErasureCoder md.staticErasureCode).1
  ++ (marshalErasureCoder md.staticErasureCode).2
  ++ toLE 8 md.staticPieceSize
  ++ encBytes md.siaPath
  ++ encBytes md.localPath
  ++ encInt64 md.accessTime
  ++ encInt64 md.changeTime
  ++ encInt64 md.createTime
  ++ encInt64 md.modTime
  ++ toLE 8 md.chunkOffset
  ++ toLE 8 md.pubKeyTableOffset
  ++ encBool md.deleted

/-- Modelled from the spec: `unmarshalMetadata` decodes the header
record; it is tolerant of trailing bytes (producers may pad to
`PAGE_SIZE`) and rejects an unknown erasure-code type tag. -/
def unmarshalMetadata (bs : List Byte) : Option Metadata :=
  match readN 16 bs with
  | none => none
  | some (version, b1) =>
  match pI64 b1 with
  | none => none
  | some (fileSize, b2) =>
  match pBytes b2 with
  | none => none
  | some (masterKey, b3) =>
  match readN 16 b3 with
  | none => none
  | some (mkType, b4) =>
  match pU32 b4 with
  | none => none
  | some (fileMode, b5) =>
  match pU8 b5 with
  | none => none
  | some (ppc, b6) =>
  match readN 16 b6 with
  | none => none
  | some (ecType, b7) =>
  match readN 4 b7 with
  | none => none
  | some (ecParams, b8) =>
  match unmarshalErasureCoder ecType ecParams with
  | none => none
  | some ec =>
  match pU64 b8 with
  | none => none
  | some (pieceSize, b9) =>
  match pBytes b9 with
  | none => none
  | some (siaPath, b10) =>
  match pBytes b10 with
  | none => none
  | some (localPath, b11) =>
  match pI64 b11 with
  | none => none
  | some (aTime, b12) =>
  match pI64 b12 with
  | none => none
  | some (cTime, b13) =>
  match pI64 b13 with
  | none => none
  | some (crTime, b14) =>
  match pI64 b14 with
  | none => none
  | some (mTime, b15) =>
  match pU64 b15 with
  | none => none
  | some (chunkOff, b16) =>
  match pU64 b16 with
  | none => none
  | some (pubOff, b17) =>
  match pBool b17 with
  | none => none
  | some (del, _) =>
    some ⟨version, fileSize, masterKey, mkType, fileMode, ppc, ec, pieceSize,
      siaPath, localPath, aTime, cTime, crTime, mTime, chunkOff, pubOff, del⟩

/-- Well-formedness of a header record: fixed-width fields are in range
and the tag fields have their fixed sizes. -/
def Metadata.WF (md : Metadata) : Prop :=
  md.version.length = 16 ∧
  md.masterKeyType.length = 16 ∧
  -(2 ^ 63) ≤ md.staticFileSize ∧ md.staticFileSize < 2 ^ 63 ∧
  md.masterKey.length < 2 ^ 32 ∧
  md.fileMode < 2 ^ 32 ∧
  md.staticPagesPerChunk < 2 ^ 8 ∧
  md.staticErasureCode.WF ∧
  md.staticPieceSize < 2 ^ 64 ∧
  md.siaPath.length < 2 ^ 32 ∧
  md.localPath.length < 2 ^ 32 ∧
  -(2 ^ 63) ≤ md.accessTime ∧ md.accessTime < 2 ^ 63 ∧
  -(2 ^ 63) ≤ md.changeTime ∧ md.changeTime < 2 ^ 63 ∧
  -(2 ^ 63) ≤ md.createTime ∧ md.createTime < 2 ^ 63 ∧
  -(2 ^ 63) ≤ md.modTime ∧ md.modTime < 2 ^ 63 ∧
  md.chunkOffset < 2 ^ 63 ∧
  md.pubKeyTableOffset < 2 ^ 63

instance : DecidablePred Metadata.WF := by
  intro md; unfold Metadata.WF; infer_instance

theorem ecType_length (ec : ErasureCoder) :
    (marshalErasureCoder ec).1.length = 16 := by
  cases ec; rfl

theorem ecParams_length (ec : ErasureCoder) :
    (marshalErasureCoder ec).2.length = 4 := by
  cases ec; rfl

theorem unmarshalMetadata_marshal {md : Metadata} (rest : List Byte)
    (h : md.WF) :
    unmarshalMetadata (marshalMetadata md ++ rest) = some md := by
  obtain ⟨h1, h2, h3, h4, h5, h6, h7, h8, h9, h10, h11, h12, h13, h14, h15,
    h16, h17, h18, h19, h20, h21⟩ := h
  have h5' : md.masterKey.length < 2 ^ 64 := by omega
  have h10' : md.siaPath.length < 2 ^ 64 := by omega
  have h11' : md.localPath.length < 2 ^ 64 := by omega
  have h20' : md.chunkOffset < 2 ^ 64 := by omega
  have h21' : md.pubKeyTableOffset < 2 ^ 64 := by omega
  simp only [marshalMetadata, List.append_assoc, unmarshalMetadata,
    readN_exact _ _ h1, pI64_enc _ h3 h4, pBytes_enc _ h5',
    readN_exact _ _ h2, pU32_enc _ h6, pU8_enc _ h7,
    readN_exact _ _ (ecType_length md.staticErasureCode),
    readN_exact _ _ (ecParams_length md.staticErasureCode),
    unmarshal_marshal_erasureCoder h8, pU64_enc _ h9,
    pBytes_enc _ h10', pBytes_enc _ h11',
    pI64_enc _ h12 h13, pI64_enc _ h14 h15, pI64_enc _ h16 h17,
    pI64_enc _ h18 h19, pU64_enc _ h20', pU64_enc _ h21', pBool_enc]

theorem marshalMetadata_length (md : Metadata) (h1 : md.version.length = 16)
    (h2 : md.masterKeyType.length = 16) :
    (marshalMetadata md).length
      = 146 + md.masterKey.length + md.siaPath.length + md.localPath.length := by
  simp only [marshalMetadata, List.length_append, h1, h2, toLE_length,
    encBytes_length, encInt64, encBool,
    ecType_length md.staticErasureCode, ecParams_length md.staticErasureCode]
  simp
  omega

/-! ## Disk model and WAL updates -/

/-- The file system visible to the persistence layer: a partial map from
paths to file contents. -/
def Disk := FsPath → Option (List Byte)

/-- Create or replace the file at `p` with contents `c`. -/
def Disk.write (d : Disk) (p : FsPath) (c : List Byte) : Disk :=
  fun q => if q = p then some c else d q

/-- Remove the file at `p` (a no-op if it did not exist). -/
def Disk.erase (d : Disk) (p : FsPath) : Disk :=
  fun q => if q = p then none else d q

/-- The empty file system. -/
def emptyDisk : Disk := fun _ => none

/-- Errors of the persistence layer. -/
inductive SFErr where
  | notFound
  | decodeErr
  | unknownUpdate
  | alreadyDeleted
  | badUpdate
deriving DecidableEq, Repr

/-- Name tag of the insert update kind. -/
def updateInsertName : String := "siafile_insert"

/-- Name tag of the delete update kind. -/
def updateDeleteName : String := "siafile_delete"

/-- A WAL update: a self-describing byte blob with a string name tag the
WAL preserves opaquely. -/
structure Update where
  name : String
  instructions : List Byte
deriving DecidableEq, Repr

/-- Modelled from the spec: the insert update
`name="siafile_insert"`, `instructions = encode(path, int64 index, data)`. -/
def mkInsertUpdate (path : FsPath) (index : Int) (data : List Byte) : Update :=
  ⟨updateInsertName, encBytes path ++ encInt64 index ++ encBytes data⟩

/-- Modelled from the spec: `readInsertUpdate(u) → (path, index, data)`. -/
def readInsertUpdate (u : Update) : Option (FsPath × Int × List Byte) :=
  match pBytes u.instructions with
  | none => none
  | some (path, b1) =>
    match pI64 b1 with
    | none => none
    | some (index, b2) =>
      match pBytes b2 with
      | none => none
      | some (data, _) => some (path, index, data)

/-- Modelled from the spec: the delete update
`name="siafile_delete"`, `instructions = encode(path)`. -/
def mkDeleteUpdate (path : FsPath) : Update := ⟨updateDeleteName, encBytes path⟩

/-- Modelled from the spec: `readDeleteUpdate(u) → path`. -/
def readDeleteUpdate (u : Update) : Option FsPath :=
  match pBytes u.instructions with
  | none => none
  | some (path, _) => some path

/-- Modelled from the spec: apply a single update to the file system.
An insert writes `data` at offset `index` of the named file, creating it
if absent and truncating nothing; a delete removes the named file
(succeeding when absent); any other name tag is an "unknown update
kind" error. -/
def applyUpdate (d : Disk) (u : Update) : Except SFErr Disk :=
  if u.name = updateDeleteName then
    match readDeleteUpdate u with
    | none => .error .decodeErr
    | some path => .ok (d.erase path)
  else if u.name = updateInsertName then
    match readInsertUpdate u with
    | none => .error .decodeErr
    | some (path, index, data) =>
      if index < 0 then .error .badUpdate
      else .ok (d.write path (writeAtBytes ((d path).getD []) index.toNat data))
  else .error .unknownUpdate

/-- Modelled from the spec: `ApplyUpdates`, the free-function applier
used during WAL recovery, where no SiaFile object exists. -/
def ApplyUpdates (d : Disk) : List Update → Except SFErr Disk
  | [] => .ok d
  | u :: us =>
    match applyUpdate d u with
    | .error e => .error e
    | .ok d' => ApplyUpdates d' us

/-! ## The SiaFile object -/

/-- The in-memory SiaFile: metadata, host public-key table, chunks, and
the path of its backing file. -/
structure SiaFile where
  staticMetadata : Metadata
  pubKeyTable : List HostPublicKey
  staticChunks : List Chunk
  siaFilePath : FsPath
deriving DecidableEq, Repr

/-- `Deleted()` accessor. -/
def SiaFile.Deleted (sf : SiaFile) : Bool := sf.staticMetadata.deleted

/-- `ErasureCode()` accessor. -/
def SiaFile.ErasureCode (sf : SiaFile) : ErasureCoder :=
  sf.staticMetadata.staticErasureCode

/-- Modelled from the spec: `chunkOffset(i) = ChunkOffset +
i · StaticPagesPerChunk · PAGE_SIZE`. -/
def SiaFile.chunkOffset (sf : SiaFile) (chunkIndex : Nat) : Nat :=
  sf.staticMetadata.chunkOffset
    + chunkIndex * sf.staticMetadata.staticPagesPerChunk * pageSize

/-- Modelled from the spec: `createInsertUpdate` builds an insert update
for the SiaFile's own backing file. -/
def SiaFile.createInsertUpdate (sf : SiaFile) (index : Int)
    (data : List Byte) : Update :=
  mkInsertUpdate sf.siaFilePath index data

/-- Modelled from the spec: `createDeleteUpdate` builds a delete update
for the SiaFile's own backing file. -/
def SiaFile.createDeleteUpdate (sf : SiaFile) : Update :=
  mkDeleteUpdate sf.siaFilePath

/-- Modelled from the spec: the method form of the applier (idempotent
replay of an update list against the file system). -/
def SiaFile.applyUpdates (sf : SiaFile) (d : Disk) :
    List Update → Except SFErr Disk
  | [] => .ok d
  | u :: us =>
    match applyUpdate d u with
    | .error e => .error e
    | .ok d' => sf.applyUpdates d' us

/-- Modelled from the spec: `createAndApplyTransaction` wraps the WAL's
three-phase commit (register, signal setup-complete, apply, signal
release) around `applyUpdates`; it refuses to run on a deleted file
(the already-deleted error).  The WAL phases have no effect on the file
system, so the disk effect is that of `applyUpdates`. -/
def SiaFile.createAndApplyTransaction (sf : SiaFile) (d : Disk)
    (updates : List Update) : Except SFErr Disk :=
  if sf.staticMetadata.deleted then .error .alreadyDeleted
  else sf.applyUpdates d updates

/-- The smallest offset `cur + n · PAGE_SIZE` (with `n ≥ 0`) at which a
header of `need` bytes fits. -/
def grownOffset (cur need : Nat) : Nat :=
  if need ≤ cur then cur
  else cur + pageSize * ((need - cur + pageSize - 1) / pageSize)

/-- Modelled from the spec: `saveHeader` produces the updates that
persist the metadata and host-key table.  The table is laid out growing
downward from `ChunkOffset` (`PubKeyTableOffset = ChunkOffset −
len(table)`); when metadata and table would overlap, the header region
grows by the smallest number of whole pages that makes them fit, and
every existing chunk is relocated verbatim from its old offset to its
new offset.  Relocation updates precede the metadata and table
updates; commit is the caller's job. -/
def SiaFile.saveHeader (sf : SiaFile) (d : Disk) : SiaFile × List Update :=
  let pkt := marshalPubKeyTable sf.pubKeyTable
  let mdLen := (marshalMetadata sf.staticMetadata).length
  let oldOff := sf.staticMetadata.chunkOffset
  let newOff := grownOffset oldOff (mdLen + pkt.length)
  let slot := sf.staticMetadata.staticPagesPerChunk * pageSize
  let sf1 : SiaFile := { sf with staticMetadata :=
    { sf.staticMetadata with
      chunkOffset := newOff
      pubKeyTableOffset := newOff - pkt.length } }
  let md := marshalMetadata sf1.staticMetadata
  let contents := (d sf.siaFilePath).getD []
  let reloc : List Update :=
    if newOff = oldOff then []
    else (List.range sf.staticChunks.length).map fun i =>
      mkInsertUpdate sf.siaFilePath ((newOff + i * slot : Nat) : Int)
        (readRange contents (oldOff + i * slot) slot)
  (sf1, reloc ++ [mkInsertUpdate sf.siaFilePath 0 md,
    mkInsertUpdate sf.siaFilePath ((newOff - pkt.length : Nat) : Int) pkt])

/-- Modelled from the spec: `saveChunk(i)` returns one insert update that
writes the marshaled chunk at `chunkOffset(i)`. -/
def SiaFile.saveChunk (sf : SiaFile) (i : Nat) : Update :=
  mkInsertUpdate sf.siaFilePath ((sf.chunkOffset i : Nat) : Int)
    (marshalChunk (sf.staticChunks.getD i (emptyChunk 0)))

/-- Modelled from the spec: chunk count `⌈fileSize / (pieceSize ·
dataPieces)⌉`, rounded up with minimum 1. -/
def numChunksFor (fileSize pieceSize dataPieces : Nat) : Nat :=
  let chunkSize := pieceSize * dataPieces
  if chunkSize = 0 then 1
  else max 1 ((fileSize + chunkSize - 1) / chunkSize)

/-- Load the chunk table: `n` chunks of `slot` bytes each starting at
`off`; the final chunk may be a short read. -/
def loadChunks (c : List Byte) (np slot : Nat) : Nat → Nat → Option (List Chunk)
  | _, 0 => some []
  | off, n + 1 =>
    match unmarshalChunk np (readRange c off slot) with
    | none => none
    | some ch => (loadChunks c np slot (off + slot) n).map (ch :: ·)

/-- Modelled from the spec: `LoadSiaFile(path)` opens the file, decodes
the metadata at offset 0, the host-key table at `[PubKeyTableOffset,
ChunkOffset)` and exactly `numChunks` chunks of `StaticPagesPerChunk ·
PAGE_SIZE` bytes each starting at `ChunkOffset` (accepting a short final
extent). -/
def LoadSiaFile (d : Disk) (path : FsPath) : Except SFErr SiaFile :=
  match d path with
  | none => .error .notFound
  | some c =>
    match unmarshalMetadata c with
    | none => .error .decodeErr
    | some md =>
      match unmarshalPubKeyTable
          (readRange c md.pubKeyTableOffset
            (md.chunkOffset - md.pubKeyTableOffset)) with
      | none => .error .decodeErr
      | some table =>
        match loadChunks c md.staticErasureCode.numPieces
            (md.staticPagesPerChunk * pageSize) md.chunkOffset
            (numChunksFor md.staticFileSize.toNat md.staticPieceSize
              md.staticErasureCode.minPieces) with
        | none => .error .decodeErr
        | some chunks => .ok ⟨md, table, chunks, path⟩

/-! ## High-level operations -/

/-- The sector size of the canonical network (4 MiB). -/
def sectorSize : Nat := 4194304

/-- The 16-byte version tag written by `New`. -/
def versionTag : List Byte :=
  [49, 46, 51, 46, 55, 0, 0, 0, 0, 0, 0, 0, 0, 0, 0, 0]

/-- The master key handed to `New`: opaque key material, a 16-byte
cipher-type tag, and the cipher's overhead (used to derive the piece
size). -/
structure MasterKey where
  keyBytes : List Byte
  keyType : List Byte
  overhead : Nat
deriving DecidableEq, Repr

/-- Modelled from the spec: `New` derives `pieceSize = SECTOR_SIZE −
cipher.Overhead`, computes `numChunks`, sets `StaticPagesPerChunk =
numChunkPagesRequired(ec.NumPieces())`, reserves one page for the
metadata (`ChunkOffset = PAGE_SIZE`; the table offset is assigned by
`saveHeader`, growing downward from `ChunkOffset`), stamps all four
timestamps to `now`, allocates `numChunks` empty chunks, and commits the
header plus the empty chunk region in a single transaction against a
fresh backing file. -/
def newInitSiaFile (siaFilePath siaPath source : FsPath) (ec : ErasureCoder)
    (mk : MasterKey) (fileSize : Nat) (mode : Nat) (now : Int) : SiaFile :=
  let pieceSize := sectorSize - mk.overhead
  let n := numChunksFor fileSize pieceSize ec.minPieces
  let md : Metadata :=
    { version := versionTag
      staticFileSize := (fileSize : Int)
      masterKey := mk.keyBytes
      masterKeyType := mk.keyType
      fileMode := mode
      staticPagesPerChunk := numChunkPagesRequired ec.numPieces
      staticErasureCode := ec
      staticPieceSize := pieceSize
      siaPath := siaPath
      localPath := source
      accessTime := now
      changeTime := now
      createTime := now
      modTime := now
      chunkOffset := pageSize
      pubKeyTableOffset := pageSize
      deleted := false }
  ⟨md, [], List.replicate n (emptyChunk ec.numPieces), siaFilePath⟩

def New (siaFilePath siaPath source : FsPath) (ec : ErasureCoder)
    (mk : MasterKey) (fileSize : Nat) (mode : Nat) (now : Int) :
    Except SFErr (SiaFile × Disk) :=
  let sf := newInitSiaFile siaFilePath siaPath source ec mk fileSize mode now
  let p := sf.saveHeader emptyDisk
  match p.1.createAndApplyTransaction emptyDisk
      (p.2 ++ (List.range sf.staticChunks.length).map fun i => p.1.saveChunk i) with
  | .error e => .error e
  | .ok d => .ok (p.1, d)

/-- Modelled from the spec: the save-header persistence operation:
compute the header updates and commit them through the WAL
transaction. -/
def SiaFile.saveHeaderOp (sf : SiaFile) (d : Disk) :
    Except SFErr (SiaFile × Disk) :=
  let p := sf.saveHeader d
  match p.1.createAndApplyTransaction d p.2 with
  | .error e => .error e
  | .ok d' => .ok (p.1, d')

/-- Modelled from the spec: `Delete()` commits a delete update at
`siaFilePath` and sets the `Deleted` flag. -/
def SiaFile.Delete (sf : SiaFile) (d : Disk) : Except SFErr (SiaFile × Disk) :=
  match sf.createAndApplyTransaction d [sf.createDeleteUpdate] with
  | .error e => .error e
  | .ok d' =>
    .ok ({ sf with staticMetadata :=
      { sf.staticMetadata with deleted := true } }, d')

/-- Membership test used by `UpdateUsedHosts`: an entry counts as used
when its raw key bytes occur among the used keys. -/
def keyMatches (used : List SiaPublicKey) (k : List Byte) : Bool :=
  used.any fun pk => pk.key == k

/-- Modelled from the spec: `UpdateUsedHosts(usedKeys)` sets each table
entry's `Used` flag according to membership in `usedKeys` (order and
indices preserved) and persists the header. -/
def SiaFile.UpdateUsedHosts (sf : SiaFile) (d : Disk)
    (used : List SiaPublicKey) : Except SFErr (SiaFile × Disk) :=
  let sf1 := { sf with pubKeyTable := sf.pubKeyTable.map fun (e : HostPublicKey) =>
    { e with used := keyMatches used e.publicKey.key } }
  sf1.saveHeaderOp d

/-- Modelled from the spec: `Rename(newSiaPath, newFilePath)` commits a
two-update transaction — delete at the old path, insert of the full
current on-disk contents at the new path — then updates the in-memory
paths. -/
def SiaFile.Rename (sf : SiaFile) (d : Disk)
    (newSiaPath newFilePath : FsPath) : Except SFErr (SiaFile × Disk) :=
  let contents := (d sf.siaFilePath).getD []
  let updates := [sf.createDeleteUpdate, mkInsertUpdate newFilePath 0 contents]
  match sf.createAndApplyTransaction d updates with
  | .error e => .error e
  | .ok d' =>
    .ok ({ sf with
      siaFilePath := newFilePath
      staticMetadata := { sf.staticMetadata with siaPath := newSiaPath } }, d')

/-! ## Properties of update application -/

theorem Disk.write_self (d : Disk) (p : FsPath) (c : List Byte) :
    d.write p c p = some c := by
  simp [Disk.write]

theorem Disk.write_other (d : Disk) (p : FsPath) (c : List Byte) {q : FsPath}
    (h : q ≠ p) : d.write p c q = d q := by
  simp [Disk.write, h]

theorem Disk.write_write (d : Disk) (p : FsPath) (a b : List Byte) :
    (d.write p a).write p b = d.write p b := by
  funext q
  by_cases h : q = p <;> simp [Disk.write, h]

theorem Disk.write_unchanged (d : Disk) (p : FsPath) {c : List Byte}
    (h : d p = some c) : d.write p c = d := by
  funext q
  by_cases hq : q = p <;> simp [Disk.write, hq, h.symm]

theorem readInsertUpdate_mk {path : FsPath} {i : Int} {data : List Byte}
    (hpath : path.length < 2 ^ 64) (hi1 : -(2 ^ 63) ≤ i) (hi2 : i < 2 ^ 63)
    (hdata : data.length < 2 ^ 64) :
    readInsertUpdate (mkInsertUpdate path i data) = some (path, i, data) := by
  have hd : pBytes (encBytes data) = some (data, []) := by
    have := pBytes_enc [] hdata
    rwa [List.append_nil] at this
  simp only [mkInsertUpdate, readInsertUpdate, List.append_assoc,
    pBytes_enc _ hpath, pI64_enc _ hi1 hi2, hd]

theorem readDeleteUpdate_mk {path : FsPath} (hpath : path.length < 2 ^ 64) :
    readDeleteUpdate (mkDeleteUpdate path) = some path := by
  have hp : pBytes (encBytes path) = some (path, []) := by
    have := pBytes_enc [] hpath
    rwa [List.append_nil] at this
  simp only [mkDeleteUpdate, readDeleteUpdate, hp]

theorem applyUpdate_insert (d : Disk) {path : FsPath} {off : Nat}
    {data : List Byte} (hpath : path.length < 2 ^ 64) (hoff : off < 2 ^ 63)
    (hdata : data.length < 2 ^ 64) :
    applyUpdate d (mkInsertUpdate path (off : Int) data)
      = .ok (d.write path (writeAtBytes ((d path).getD []) off data)) := by
  have hname : updateInsertName ≠ updateDeleteName := by decide
  have hro := @readInsertUpdate_mk path (off : Int) data hpath
    (by omega) (by omega) hdata
  have hneg : ¬((off : Int) < 0) := by omega
  simp only [applyUpdate, mkInsertUpdate, hname, if_false, if_pos rfl,
    reduceCtorEq, ite_false]
  rw [show (⟨updateInsertName,
      encBytes path ++ encInt64 (off : Int) ++ encBytes data⟩ : Update)
    = mkInsertUpdate path (off : Int) data from rfl, hro]
  simp only [hneg, if_false, Int.toNat_natCast, if_true]

theorem applyUpdate_delete (d : Disk) {path : FsPath}
    (hpath : path.length < 2 ^ 64) :
    applyUpdate d (mkDeleteUpdate path) = .ok (d.erase path) := by
  simp only [applyUpdate, mkDeleteUpdate, if_pos rfl, if_true]
  rw [show (⟨updateDeleteName, encBytes path⟩ : Update)
    = mkDeleteUpdate path from rfl, readDeleteUpdate_mk hpath]

theorem applyUpdates_eq_ApplyUpdates (sf : SiaFile) :
    ∀ (us : List Update) (d : Disk), sf.applyUpdates d us = ApplyUpdates d us := by
  intro us
  induction us with
  | nil => intro d; rfl
  | cons u us ih =>
    intro d
    simp only [SiaFile.applyUpdates, ApplyUpdates]
    cases applyUpdate d u with
    | error e => rfl
    | ok d' => exact ih d'

theorem createAndApplyTransaction_eq (sf : SiaFile) (d : Disk)
    (us : List Update) (h : sf.staticMetadata.deleted = false) :
    sf.createAndApplyTransaction d us = sf.applyUpdates d us := by
  simp [SiaFile.createAndApplyTransaction, h]

theorem ApplyUpdates_append (a b : List Update) (d : Disk) :
    ApplyUpdates d (a ++ b) =
      match ApplyUpdates d a with
      | .error e => .error e
      | .ok d' => ApplyUpdates d' b := by
  induction a generalizing d with
  | nil => rfl
  | cons u a ih =>
    simp only [List.cons_append, ApplyUpdates]
    cases applyUpdate d u with
    | error e => rfl
    | ok d' => exact ih d'

/-! ## Header growth arithmetic -/

theorem grownOffset_ge_cur (cur need : Nat) : cur ≤ grownOffset cur need := by
  unfold grownOffset
  split <;> omega

theorem grownOffset_ge_need (cur need : Nat) : need ≤ grownOffset cur need := by
  unfold grownOffset pageSize
  split
  · omega
  · have h := Nat.div_add_mod (need - cur + 4096 - 1) 4096
    have h2 : (need - cur + 4096 - 1) % 4096 < 4096 := Nat.mod_lt _ (by norm_num)
    omega

theorem grownOffset_of_le {cur need : Nat} (h : need ≤ cur) :
    grownOffset cur need = cur := by
  unfold grownOffset
  rw [if_pos h]

theorem grownOffset_one_page {cur need : Nat} (h1 : cur < need)
    (h2 : need ≤ cur + pageSize) : grownOffset cur need = cur + pageSize := by
  unfold grownOffset pageSize at *
  rw [if_neg (by omega)]
  have : (need - cur + 4096 - 1) / 4096 = 1 := by
    have h3 : 1 ≤ need - cur := by omega
    have h4 : need - cur ≤ 4096 := by omega
    omega
  omega

theorem grownOffset_le (cur need : Nat) :
    grownOffset cur need ≤ cur + need + pageSize := by
  unfold grownOffset pageSize
  split
  · omega
  · have h := Nat.div_add_mod (need - cur + 4096 - 1) 4096
    omega

/-! ## Decompositions of `writeAtBytes` -/

theorem writeAtBytes_empty (c : List Byte) (idx : Nat) :
    writeAtBytes c idx [] = c := rfl

theorem writeAtBytes_decomp {c data : List Byte} {idx : Nat} (hne : data ≠ []) :
    ∃ P, writeAtBytes c idx data = P ++ data ++ c.drop (idx + data.length)
      ∧ P.length = idx := by
  have hdata : data.isEmpty = false := by
    cases data with
    | nil => exact absurd rfl hne
    | cons a l => rfl
  refine ⟨(c ++ List.replicate (idx + data.length - c.length) 0).take idx, ?_, ?_⟩
  · rw [writeAtBytes, hdata]
    simp
  · have hd : 1 ≤ data.length := by
      cases data with
      | nil => exact absurd rfl hne
      | cons a l => simp
    simp only [List.length_take, List.length_append, List.length_replicate]
    omega

theorem writeAtBytes_inside {c data : List Byte} {idx : Nat}
    (hne : data ≠ []) (hfit : idx + data.length ≤ c.length) :
    writeAtBytes c idx data = c.take idx ++ data ++ c.drop (idx + data.length) := by
  have hdata : data.isEmpty = false := by
    cases data with
    | nil => exact absurd rfl hne
    | cons a l => rfl
  rw [writeAtBytes, hdata]
  simp only [Bool.false_eq_true, if_false]
  have : idx + data.length - c.length = 0 := by omega
  rw [this, List.replicate_zero, List.append_nil]

theorem writeAtBytes_prefix {c data : List Byte} (hne : data ≠ [])
    (hfit : data.length ≤ c.length) :
    writeAtBytes c 0 data = data ++ c.drop data.length := by
  rw [writeAtBytes_inside hne (by omega)]
  simp

theorem readRange_writeAtBytes_self {c data : List Byte} {idx : Nat} :
    readRange (writeAtBytes c idx data) idx data.length = data := by
  by_cases hne : data = []
  · subst hne; simp [readRange]
  · obtain ⟨P, hP, hPlen⟩ := @writeAtBytes_decomp c data idx hne
    rw [hP, readRange, ← hPlen, List.append_assoc, List.drop_left,
      List.take_left]

theorem readRange_writeAtBytes_below {c data : List Byte} {idx off n : Nat}
    (h : idx + data.length ≤ off) :
    readRange (writeAtBytes c idx data) off n = readRange c off n := by
  by_cases hne : data = []
  · subst hne; rw [writeAtBytes_empty]
  · obtain ⟨P, hP, hPlen⟩ := @writeAtBytes_decomp c data idx hne
    rw [hP, readRange, readRange, List.drop_append_eq_append_drop]
    have h1 : (P ++ data).drop off = [] := by
      apply List.drop_eq_nil_of_le
      simp only [List.length_append, hPlen]
      omega
    rw [h1, List.nil_append, List.drop_drop]
    congr 2
    simp only [List.length_append, hPlen]
    omega

theorem readRange_writeAtBytes_above {c data : List Byte} {idx off n : Nat}
    (hidx : off + n ≤ idx) (hlen : off + n ≤ c.length) :
    readRange (writeAtBytes c idx data) off n = readRange c off n := by
  by_cases hne : data = []
  · subst hne; rw [writeAtBytes_empty]
  · have hdata : data.isEmpty = false := by
      cases data with
      | nil => exact absurd rfl hne
      | cons a l => rfl
    have hd1 : 1 ≤ data.length := by
      cases data with
      | nil => exact absurd rfl hne
      | cons a l => simp
    have htk : (writeAtBytes c idx data).take (off + n) = c.take (off + n) := by
      rw [writeAtBytes, hdata]
      simp only [Bool.false_eq_true, if_false]
      rw [List.append_assoc, List.take_append_of_le_length, List.take_take,
        show min (off + n) idx = off + n by omega,
        List.take_append_of_le_length hlen]
      simp only [List.length_take, List.length_append, List.length_replicate]
      omega
    have hr : ∀ l : List Byte, readRange (l.take (off + n)) off n
        = readRange l off n := by
      intro l
      rw [readRange, readRange, List.drop_take,
        show off + n - off = n by omega, List.take_take, min_self]
    rw [← hr, htk, hr]

/-! ## The chunk region written by `New` -/

/-- Contents of the chunk region for `n` empty chunks in slots of `slot`
bytes: each chunk is the single count byte `0`, with the slot padded by
zeros up to the next chunk; the final chunk is not padded. -/
def emptyBlob (slot : Nat) : Nat → List Byte
  | 0 => []
  | 1 => [0]
  | n + 2 => [0] ++ (List.replicate (slot - 1) 0 ++ emptyBlob slot (n + 1))

theorem emptyBlob_length {slot : Nat} (hslot : 1 ≤ slot) :
    ∀ n, 1 ≤ n → (emptyBlob slot n).length = (n - 1) * slot + 1 := by
  intro n
  induction n with
  | zero => omega
  | succ m ih =>
    intro h
    match m, ih with
    | 0, _ => simp [emptyBlob]
    | m + 1, ih =>
      have h1 := ih (by omega)
      simp only [emptyBlob, List.length_append, List.length_cons,
        List.length_nil, List.length_replicate] at *
      have e1 : (m + 1 + 1 - 1) * slot = (m + 1 - 1) * slot + slot := by
        rw [show m + 1 + 1 - 1 = (m + 1 - 1) + 1 by omega]
        ring
      omega

theorem emptyBlob_slice {slot : Nat} (hslot : 1 ≤ slot) :
    ∀ n i, i < n → ∃ k, readRange (emptyBlob slot n) (i * slot) slot
      = [0] ++ List.replicate k 0 := by
  intro n
  induction n with
  | zero => omega
  | succ m ih =>
    intro i hi
    match i with
    | 0 =>
      match m with
      | 0 =>
        refine ⟨0, ?_⟩
        simp only [emptyBlob, readRange, Nat.zero_mul, List.drop_zero]
        rw [List.take_of_length_le (by simp; omega)]
        rfl
      | m + 1 =>
        obtain ⟨t, rfl⟩ : ∃ t, slot = t + 1 := ⟨slot - 1, by omega⟩
        refine ⟨t, ?_⟩
        have h1 : emptyBlob (t + 1) (m + 2)
            = 0 :: (List.replicate t 0 ++ emptyBlob (t + 1) (m + 1)) := by
          rw [emptyBlob]
          simp
        rw [h1, readRange, Nat.zero_mul, List.drop_zero, List.take_succ_cons,
          List.take_append_of_le_length (by simp),
          List.take_of_length_le (by simp)]
        simp
    | i + 1 =>
      match m with
      | 0 => omega
      | m + 1 =>
        obtain ⟨k, hk⟩ := ih i (by omega)
        refine ⟨k, ?_⟩
        rw [← hk]
        have hfront : emptyBlob slot (m + 2)
            = ([0] ++ List.replicate (slot - 1) 0) ++ emptyBlob slot (m + 1) := by
          rw [emptyBlob, List.append_assoc]
        have hlen : ([0] ++ List.replicate (slot - 1) 0 : List Byte).length
            = slot := by
          simp
          omega
        have hdropF : List.drop slot (([0] ++ List.replicate (slot - 1) 0)
            ++ emptyBlob slot (m + 1)) = emptyBlob slot (m + 1) := by
          rw [List.drop_append_eq_append_drop,
            List.drop_eq_nil_of_le (by rw [hlen]), hlen, Nat.sub_self,
            List.drop_zero, List.nil_append]
        simp only [readRange]
        conv_rhs => rw [← hdropF, List.drop_drop]
        rw [hfront, show (i + 1) * slot = i * slot + slot by ring,
          Nat.add_comm (i * slot) slot]

theorem unmarshalChunk_zeros {np k : Nat} (hnp : np < 2 ^ 32) :
    unmarshalChunk np ([0] ++ List.replicate k 0) = some (emptyChunk np) := by
  have := @unmarshalChunk_marshalChunk (emptyChunk np) np (List.replicate k 0)
    (emptyChunk_WF hnp)
  rwa [marshalChunk_emptyChunk] at this

theorem loadChunks_of_slices {c : List Byte} {np slot : Nat}
    (hnp : np < 2 ^ 32) :
    ∀ (n off : Nat),
      (∀ i, i < n → ∃ k, readRange c (off + i * slot) slot
        = [0] ++ List.replicate k 0) →
      loadChunks c np slot off n = some (List.replicate n (emptyChunk np)) := by
  intro n
  induction n with
  | zero => intro off h; rfl
  | succ m ih =>
    intro off h
    obtain ⟨k, hk⟩ := h 0 (by omega)
    rw [Nat.zero_mul, Nat.add_zero] at hk
    have hrest : ∀ i, i < m → ∃ k, readRange c (off + slot + i * slot) slot
        = [0] ++ List.replicate k 0 := by
      intro i hi
      have := h (i + 1) (by omega)
      rwa [show off + (i + 1) * slot = off + slot + i * slot by ring] at this
    simp only [loadChunks, hk, unmarshalChunk_zeros hnp, ih (off + slot) hrest,
      Option.map_some', List.replicate_succ]

/-! ## Loading a laid-out file -/

theorem readRange_middle (A B C : List Byte) :
    readRange (A ++ (B ++ C)) A.length B.length = B := by
  rw [readRange, List.drop_left, List.take_left]

/-- Loading a file whose contents follow the on-disk layout (metadata at
offset 0, arbitrary filler up to `PubKeyTableOffset`, the host-key table
ending exactly at `ChunkOffset`, then the chunk region holding `n` empty
chunks) returns the corresponding in-memory object. -/
theorem load_layout {d : Disk} {path : FsPath} {m : Metadata}
    {t : List HostPublicKey} {G : List Byte} {n : Nat}
    (hm : m.WF) (ht : PubKeyTableWF t)
    (hctn : d path = some (marshalMetadata m ++ (G ++ (marshalPubKeyTable t
      ++ emptyBlob (m.staticPagesPerChunk * pageSize) n))))
    (hG : (marshalMetadata m).length + G.length = m.pubKeyTableOffset)
    (hpub : m.pubKeyTableOffset + (marshalPubKeyTable t).length
      = m.chunkOffset)
    (hn : numChunksFor m.staticFileSize.toNat m.staticPieceSize
      m.staticErasureCode.minPieces = n)
    (hslot1 : 1 ≤ m.staticPagesPerChunk)
    (hnp : m.staticErasureCode.numPieces < 2 ^ 32) :
    LoadSiaFile d path = .ok ⟨m, t,
      List.replicate n (emptyChunk m.staticErasureCode.numPieces), path⟩ := by
  have hslot : 1 ≤ m.staticPagesPerChunk * pageSize := by
    have : (1 : Nat) ≤ pageSize := by norm_num [pageSize]
    calc 1 = 1 * 1 := rfl
    _ ≤ m.staticPagesPerChunk * pageSize := Nat.mul_le_mul hslot1 this
  set slot := m.staticPagesPerChunk * pageSize with hslotdef
  set md := marshalMetadata m with hmddef
  set pkt := marshalPubKeyTable t with hpktdef
  set blob := emptyBlob slot n with hblobdef
  -- metadata parse
  have hmd : unmarshalMetadata (md ++ (G ++ (pkt ++ blob))) = some m :=
    unmarshalMetadata_marshal _ hm
  -- host-key table parse
  have hpkt : readRange (md ++ (G ++ (pkt ++ blob))) m.pubKeyTableOffset
      (m.chunkOffset - m.pubKeyTableOffset) = pkt := by
    have h1 : md ++ (G ++ (pkt ++ blob)) = (md ++ G) ++ (pkt ++ blob) := by
      simp
    have h2 : (md ++ G).length = m.pubKeyTableOffset := by
      simp only [List.length_append]
      exact hG
    have h3 : m.chunkOffset - m.pubKeyTableOffset = pkt.length := by omega
    rw [h1, h3, ← h2, readRange_middle]
  have htb : unmarshalPubKeyTable pkt = some t := by
    have := unmarshalPubKeyTable_marshal [] ht
    rwa [List.append_nil] at this
  -- chunk region parse
  have hchunks : loadChunks (md ++ (G ++ (pkt ++ blob)))
      m.staticErasureCode.numPieces slot m.chunkOffset n
      = some (List.replicate n (emptyChunk m.staticErasureCode.numPieces)) := by
    apply loadChunks_of_slices hnp
    intro i hi
    obtain ⟨k, hk⟩ := emptyBlob_slice hslot n i hi
    refine ⟨k, ?_⟩
    have h1 : md ++ (G ++ (pkt ++ blob)) = (md ++ G ++ pkt) ++ blob := by
      simp
    have h2 : (md ++ G ++ pkt).length = m.chunkOffset := by
      simp only [List.length_append]
      omega
    rw [h1, show m.chunkOffset + i * slot
      = (md ++ G ++ pkt).length + i * slot by rw [h2], readRange_shift, hk]
  rw [LoadSiaFile, hctn]
  simp only [hmd, hpkt, htb, hn, hchunks]

/-! ## Applying the updates produced by `New` -/

theorem getD_replicate {α : Type} {n i : Nat} (a b : α) (h : i < n) :
    (List.replicate n a).getD i b = a := by
  rw [List.getD_eq_getElem?_getD, List.getElem?_replicate, if_pos h]
  rfl

theorem numChunksFor_pos (fs ps dp : Nat) : 1 ≤ numChunksFor fs ps dp := by
  unfold numChunksFor
  dsimp only
  split
  · omega
  · simp

theorem numChunkPagesRequired_pos (np : Nat) :
    1 ≤ numChunkPagesRequired np :=
  Nat.succ_le_succ (Nat.zero_le _)

theorem numChunkPagesRequired_lt {np : Nat} (h : np ≤ 1000) :
    numChunkPagesRequired np < 2 ^ 8 := by
  unfold numChunkPagesRequired marshaledChunkSize marshaledPieceSize pageSize
  have h1 : 1 + np * (4 + 4 + 32) ≤ 40001 := by
    have := Nat.mul_le_mul_right (4 + 4 + 32) h
    omega
  have h2 : (1 + np * (4 + 4 + 32)) / 4096 ≤ 40001 / 4096 :=
    Nat.div_le_div_right h1
  norm_num at h2 ⊢
  omega

theorem ApplyUpdates_empty_inserts {path : FsPath}
    (hpath : path.length < 2 ^ 64) :
    ∀ (l : List Update) (d : Disk),
      (∀ u ∈ l, ∃ off : Nat, off < 2 ^ 63 ∧
        u = mkInsertUpdate path (off : Int) []) →
      ∃ d', ApplyUpdates d l = .ok d' ∧
        (d' path).getD [] = (d path).getD [] ∧
        (∀ X, d'.write path X = d.write path X) ∧
        ∀ q, q ≠ path → d' q = d q := by
  intro l
  induction l with
  | nil => exact fun d h => ⟨d, rfl, rfl, fun X => rfl, fun q hq => rfl⟩
  | cons u l ih =>
    intro d h
    obtain ⟨off, hoff, huu⟩ := h u (by simp)
    subst huu
    have happ := @applyUpdate_insert d path off [] hpath hoff
      (by norm_num)
    rw [writeAtBytes_empty] at happ
    obtain ⟨d', h1, h2, h3, h4⟩ := ih (d.write path ((d path).getD []))
      (fun u hu => h u (by simp [hu]))
    refine ⟨d', ?_, ?_, ?_, ?_⟩
    · simp only [ApplyUpdates, happ, h1]
    · rw [h2, Disk.write_self]
      rfl
    · intro X
      rw [h3, Disk.write_write]
    · intro q hq
      rw [h4 q hq, Disk.write_other _ _ _ hq]

theorem ApplyUpdates_inserts_ok {path : FsPath}
    (hpath : path.length < 2 ^ 64) :
    ∀ (l : List Update) (d : Disk),
      (∀ u ∈ l, ∃ off : Nat, ∃ data : List Byte, off < 2 ^ 63 ∧
        data.length < 2 ^ 64 ∧ u = mkInsertUpdate path (off : Int) data) →
      ∃ d', ApplyUpdates d l = .ok d' := by
  intro l
  induction l with
  | nil => exact fun d h => ⟨d, rfl⟩
  | cons u l ih =>
    intro d h
    obtain ⟨off, data, hoff, hdata, huu⟩ := h u (by simp)
    subst huu
    have happ := applyUpdate_insert d hpath hoff hdata
    obtain ⟨d', h1⟩ := ih
      (d.write path (writeAtBytes ((d path).getD []) off data))
      (fun u hu => h u (by simp [hu]))
    exact ⟨d', by simp only [ApplyUpdates, happ, h1]⟩

theorem ApplyUpdates_emptyChunks {path : FsPath}
    (hpath : path.length < 2 ^ 64) {slot : Nat} (hslot : 1 ≤ slot) :
    ∀ (n off : Nat) (d : Disk) (c : List Byte),
      d path = some c → c.length ≤ off → off + (n + 1) * slot < 2 ^ 63 →
      ApplyUpdates d ((List.range (n + 1)).map fun i =>
        mkInsertUpdate path ((off + i * slot : Nat) : Int) [0])
      = .ok (d.write path
          (c ++ (List.replicate (off - c.length) 0 ++ emptyBlob slot (n + 1)))) := by
  intro n
  induction n with
  | zero =>
    intro off d c hc hlen hbound
    have hoff : off < 2 ^ 63 := by omega
    have happ := @applyUpdate_insert d path off [0] hpath
      hoff (by norm_num)
    rw [show List.range 1 = [0] from rfl]
    simp only [List.map_cons, List.map_nil, Nat.zero_mul,
      Nat.add_zero, ApplyUpdates, happ, hc, Option.getD_some]
    rw [writeAtBytes_append [0] hlen (by simp)]
    rw [show emptyBlob slot 1 = [0] from rfl]
    simp
  | succ m ih =>
    intro off d c hc hlen hbound
    have hss : slot ≤ (m + 1 + 1) * slot := by
      calc slot = 1 * slot := (Nat.one_mul slot).symm
      _ ≤ (m + 1 + 1) * slot := Nat.mul_le_mul_right slot (by omega)
    have hoff : off < 2 ^ 63 := by omega
    have hmap : (List.range (m + 2)).map (fun i =>
          mkInsertUpdate path ((off + i * slot : Nat) : Int) [0])
        = mkInsertUpdate path ((off : Nat) : Int) [0] ::
          (List.range (m + 1)).map (fun i =>
            mkInsertUpdate path ((off + slot + i * slot : Nat) : Int) [0]) := by
      rw [List.range_succ_eq_map, List.map_cons, List.map_map]
      congr 1
      · rw [Nat.zero_mul, Nat.add_zero]
      · apply List.map_congr_left
        intro a _
        simp only [Function.comp_apply, Nat.succ_eq_add_one]
        congr 2
        ring
    have happ := @applyUpdate_insert d path off [0] hpath
      hoff (by norm_num)
    rw [hmap]
    simp only [ApplyUpdates, happ, hc, Option.getD_some]
    rw [writeAtBytes_append [0] hlen (by simp)]
    have hbound2 : off + slot + (m + 1) * slot < 2 ^ 63 := by
      have : (m + 1 + 1) * slot = slot + (m + 1) * slot := by ring
      omega
    have hc2 : (d.write path (c ++ List.replicate (off - c.length) 0 ++ [0]))
        path = some (c ++ List.replicate (off - c.length) 0 ++ [0]) :=
      Disk.write_self _ _ _
    have hlen2 : (c ++ List.replicate (off - c.length) 0 ++ [0]).length
        ≤ off + slot := by
      simp only [List.length_append, List.length_replicate, List.length_cons,
        List.length_nil]
      omega
    rw [ih (off + slot) _ _ hc2 hlen2 hbound2, Disk.write_write]
    congr 2
    have hlen3 : (c ++ List.replicate (off - c.length) 0 ++ [0]).length
        = off + 1 := by
      simp only [List.length_append, List.length_replicate, List.length_cons,
        List.length_nil]
      omega
    rw [hlen3]
    have hblob : emptyBlob slot (m + 2)
        = [0] ++ (List.replicate (slot - 1) 0 ++ emptyBlob slot (m + 1)) := by
      rw [emptyBlob]
    rw [hblob, show off + slot - (off + 1) = slot - 1 by omega]
    simp [List.append_assoc]

/-! ## Characterization of `New` -/

theorem saveHeader_fst (sf : SiaFile) (d : Disk) :
    (sf.saveHeader d).1 = { sf with staticMetadata :=
      { sf.staticMetadata with
        chunkOffset := grownOffset sf.staticMetadata.chunkOffset
          ((marshalMetadata sf.staticMetadata).length
            + (marshalPubKeyTable sf.pubKeyTable).length)
        pubKeyTableOffset := grownOffset sf.staticMetadata.chunkOffset
          ((marshalMetadata sf.staticMetadata).length
            + (marshalPubKeyTable sf.pubKeyTable).length)
          - (marshalPubKeyTable sf.pubKeyTable).length } } := rfl

theorem marshalPubKeyTable_nil_length : (marshalPubKeyTable []).length = 8 := by
  simp [marshalPubKeyTable]

theorem numChunksFor_le (fs ps dp : Nat) : numChunksFor fs ps dp ≤ fs + 1 := by
  unfold numChunksFor
  dsimp only
  split
  · omega
  · rename_i hcs
    have hpos : 0 < ps * dp := Nat.pos_of_ne_zero hcs
    have h1 : (fs + ps * dp - 1) / (ps * dp) ≤ (fs + ps * dp) / (ps * dp) :=
      Nat.div_le_div_right (by omega)
    have h2 : (fs + ps * dp) / (ps * dp) = fs / (ps * dp) + 1 :=
      Nat.add_div_right fs hpos
    have h3 : fs / (ps * dp) ≤ fs := Nat.div_le_self fs _
    simp only [max_le_iff]
    omega

theorem saveHeader_snd (sf : SiaFile) (d : Disk) :
    (sf.saveHeader d).2 =
      (if grownOffset sf.staticMetadata.chunkOffset
          ((marshalMetadata sf.staticMetadata).length
            + (marshalPubKeyTable sf.pubKeyTable).length)
          = sf.staticMetadata.chunkOffset then []
       else (List.range sf.staticChunks.length).map fun i =>
         mkInsertUpdate sf.siaFilePath
           ((grownOffset sf.staticMetadata.chunkOffset
              ((marshalMetadata sf.staticMetadata).length
                + (marshalPubKeyTable sf.pubKeyTable).length)
             + i * (sf.staticMetadata.staticPagesPerChunk * pageSize) : Nat) : Int)
           (readRange ((d sf.siaFilePath).getD [])
             (sf.staticMetadata.chunkOffset
               + i * (sf.staticMetadata.staticPagesPerChunk * pageSize))
             (sf.staticMetadata.staticPagesPerChunk * pageSize)))
      ++ [mkInsertUpdate sf.siaFilePath 0
            (marshalMetadata { sf.staticMetadata with
              chunkOffset := grownOffset sf.staticMetadata.chunkOffset
                ((marshalMetadata sf.staticMetadata).length
                  + (marshalPubKeyTable sf.pubKeyTable).length)
              pubKeyTableOffset := grownOffset sf.staticMetadata.chunkOffset
                ((marshalMetadata sf.staticMetadata).length
                  + (marshalPubKeyTable sf.pubKeyTable).length)
                - (marshalPubKeyTable sf.pubKeyTable).length }),
          mkInsertUpdate sf.siaFilePath
            ((grownOffset sf.staticMetadata.chunkOffset
               ((marshalMetadata sf.staticMetadata).length
                 + (marshalPubKeyTable sf.pubKeyTable).length)
              - (marshalPubKeyTable sf.pubKeyTable).length : Nat) : Int)
            (marshalPubKeyTable sf.pubKeyTable)] := rfl

theorem readRange_nil (off n : Nat) : readRange [] off n = [] := by
  simp [readRange]

/-- Well-formedness of the arguments handed to `New` (field widths
within the widths of the on-disk format, erasure-code parameters within
the supported range). -/
def NewArgsWF (siaFilePath siaPath source : FsPath) (ec : ErasureCoder)
    (mk : MasterKey) (fileSize mode : Nat) (now : Int) : Prop :=
  siaFilePath.length < 2 ^ 64 ∧
  siaPath.length < 2 ^ 32 ∧
  source.length < 2 ^ 32 ∧
  mk.keyBytes.length < 2 ^ 32 ∧
  mk.keyType.length = 16 ∧
  mk.overhead < sectorSize ∧
  ec.WF ∧
  1 ≤ ec.minPieces ∧
  ec.numPieces ≤ 1000 ∧
  fileSize < 2 ^ 40 ∧
  mode < 2 ^ 32 ∧
  -(2 ^ 63) ≤ now ∧ now < 2 ^ 63

instance : Decidable (NewArgsWF p sp src ec mk fs mode now) := by
  unfold NewArgsWF; infer_instance

set_option maxHeartbeats 1000000 in
theorem New_char (path siaPath source : FsPath) (ec : ErasureCoder)
    (mk : MasterKey) (fileSize mode : Nat) (now : Int)
    (h : NewArgsWF path siaPath source ec mk fileSize mode now) :
    ∃ sf d, New path siaPath source ec mk fileSize mode now = .ok (sf, d) ∧
      sf.siaFilePath = path ∧
      sf.pubKeyTable = [] ∧
      sf.staticChunks = List.replicate
        (numChunksFor fileSize (sectorSize - mk.overhead) ec.minPieces)
        (emptyChunk ec.numPieces) ∧
      sf.staticMetadata.WF ∧
      sf.staticMetadata.staticErasureCode = ec ∧
      sf.staticMetadata.staticPagesPerChunk = numChunkPagesRequired ec.numPieces ∧
      sf.staticMetadata.deleted = false ∧
      sf.staticMetadata.siaPath = siaPath ∧
      sf.staticMetadata.localPath = source ∧
      sf.staticMetadata.staticFileSize = (fileSize : Int) ∧
      sf.staticMetadata.staticPieceSize = sectorSize - mk.overhead ∧
      sf.staticMetadata.chunkOffset
        = grownOffset pageSize ((marshalMetadata sf.staticMetadata).length + 8) ∧
      sf.staticMetadata.pubKeyTableOffset
        = sf.staticMetadata.chunkOffset - 8 ∧
      (marshalMetadata sf.staticMetadata).length + 8
        ≤ sf.staticMetadata.chunkOffset ∧
      (marshalMetadata sf.staticMetadata).length
        = 146 + mk.keyBytes.length + siaPath.length + source.length ∧
      sf.staticMetadata.chunkOffset
        + (numChunksFor fileSize (sectorSize - mk.overhead) ec.minPieces + 1)
          * (sf.staticMetadata.staticPagesPerChunk * pageSize) + pageSize
        < 2 ^ 63 ∧
      d path = some (marshalMetadata sf.staticMetadata
        ++ (List.replicate (sf.staticMetadata.pubKeyTableOffset
              - (marshalMetadata sf.staticMetadata).length) 0
          ++ (marshalPubKeyTable []
            ++ emptyBlob (sf.staticMetadata.staticPagesPerChunk * pageSize)
              (numChunksFor fileSize (sectorSize - mk.overhead)
                ec.minPieces)))) ∧
      (∀ q, q ≠ path → d q = none) := by
  obtain ⟨hpath, hsp, hsrc, hmk, hmkt, hov, hec, hmin, hnp1000, hfs, hmode,
    hnow1, hnow2⟩ := h
  set sf0 := newInitSiaFile path siaPath source ec mk fileSize mode now
    with hsf0
  set n := numChunksFor fileSize (sectorSize - mk.overhead) ec.minPieces
    with hn
  have hsf0pkt : sf0.pubKeyTable = [] := rfl
  have hsf0chunks : sf0.staticChunks = List.replicate n (emptyChunk ec.numPieces) := rfl
  have hsf0path : sf0.siaFilePath = path := rfl
  have hsf0off : sf0.staticMetadata.chunkOffset = pageSize := rfl
  have hsf0ppc : sf0.staticMetadata.staticPagesPerChunk
      = numChunkPagesRequired ec.numPieces := rfl
  have hverlen : sf0.staticMetadata.version.length = 16 := rfl
  have hmktlen : sf0.staticMetadata.masterKeyType.length = 16 := hmkt
  have hL : (marshalMetadata sf0.staticMetadata).length
      = 146 + mk.keyBytes.length + siaPath.length + source.length := by
    rw [marshalMetadata_length _ hverlen hmktlen]
    rfl
  -- The file produced by `saveHeader`, and its header offsets.
  set sf1 := (sf0.saveHeader emptyDisk).1 with hsf1
  set L := (marshalMetadata sf0.staticMetadata).length with hLdef
  set F := grownOffset pageSize (L + 8) with hFdef
  have hLF : L + 8 ≤ F := grownOffset_ge_need _ _
  have hpgF : pageSize ≤ F := grownOffset_ge_cur _ _
  have hFle : F ≤ pageSize + (L + 8) + pageSize := grownOffset_le _ _
  have hmd1 : sf1.staticMetadata = { sf0.staticMetadata with
      chunkOffset := F, pubKeyTableOffset := F - 8 } := by
    rw [hsf1, saveHeader_fst, hsf0pkt, marshalPubKeyTable_nil_length,
      hsf0off, ← hLdef, ← hFdef]
  have hverlen1 : sf1.staticMetadata.version.length = 16 := by
    rw [hmd1]; exact hverlen
  have hmktlen1 : sf1.staticMetadata.masterKeyType.length = 16 := by
    rw [hmd1]; exact hmktlen
  have hmd1len : (marshalMetadata sf1.staticMetadata).length = L := by
    rw [marshalMetadata_length _ hverlen1 hmktlen1, hL]
    rfl
  have hsf1path : sf1.siaFilePath = path := rfl
  have hsf1pkt : sf1.pubKeyTable = [] := rfl
  have hsf1chunks : sf1.staticChunks = List.replicate n (emptyChunk ec.numPieces) := rfl
  have hsf1del : sf1.staticMetadata.deleted = false := by
    rw [hmd1]; exact rfl
  have hsf1ppc : sf1.staticMetadata.staticPagesPerChunk
      = numChunkPagesRequired ec.numPieces := by
    rw [hmd1]; exact hsf0ppc
  -- Bounds.
  have hppc : numChunkPagesRequired ec.numPieces < 2 ^ 8 :=
    numChunkPagesRequired_lt hnp1000
  set slot := numChunkPagesRequired ec.numPieces * pageSize with hslotdef
  have hslot1 : 1 ≤ slot := by
    rw [hslotdef]
    have h1 := numChunkPagesRequired_pos ec.numPieces
    calc 1 = 1 * 1 := rfl
    _ ≤ numChunkPagesRequired ec.numPieces * pageSize :=
      Nat.mul_le_mul h1 (by norm_num [pageSize])
  have hslotle : slot ≤ 2 ^ 20 := by
    rw [hslotdef]
    calc numChunkPagesRequired ec.numPieces * pageSize
        ≤ 255 * 4096 := Nat.mul_le_mul (by omega) (by norm_num [pageSize])
    _ ≤ 2 ^ 20 := by norm_num
  have hnle : n ≤ 2 ^ 40 := by
    have := numChunksFor_le fileSize (sectorSize - mk.overhead) ec.minPieces
    omega
  have hnslot : (n + 1) * slot ≤ 2 ^ 61 := by
    calc (n + 1) * slot ≤ (2 ^ 40 + 1) * 2 ^ 20 :=
      Nat.mul_le_mul (by omega) hslotle
    _ ≤ 2 ^ 61 := by norm_num
  have hLbound : L < 2 ^ 34 := by
    rw [hL]
    omega
  have hpg : pageSize = 4096 := rfl
  have hFbound : F + (n + 1) * slot + pageSize < 2 ^ 63 := by
    omega
  -- One positive chunk count.
  obtain ⟨m, hm⟩ : ∃ m, n = m + 1 := by
    have := numChunksFor_pos fileSize (sectorSize - mk.overhead) ec.minPieces
    exact ⟨n - 1, by omega⟩
  -- The update list produced by `saveHeader` on the fresh disk.
  have hupd : (sf0.saveHeader emptyDisk).2 =
      (if F = pageSize then []
       else (List.range n).map fun i =>
         mkInsertUpdate path ((F + i * slot : Nat) : Int) [])
      ++ [mkInsertUpdate path 0 (marshalMetadata sf1.staticMetadata),
          mkInsertUpdate path ((F - 8 : Nat) : Int) (marshalPubKeyTable [])] := by
    rw [saveHeader_snd, hsf0pkt, marshalPubKeyTable_nil_length, hsf0off,
      hsf0path, hsf0ppc, ← hLdef, ← hFdef, ← hslotdef, hsf0chunks, ← hmd1]
    simp only [show (emptyDisk path).getD [] = [] from rfl, readRange_nil,
      List.length_replicate]
  -- The chunk updates.
  have hchunkupd : (List.range sf0.staticChunks.length).map
        (fun i => sf1.saveChunk i)
      = (List.range n).map fun i =>
          mkInsertUpdate path ((F + i * slot : Nat) : Int) [0] := by
    rw [hsf0chunks, List.length_replicate]
    apply List.map_congr_left
    intro i hi
    rw [List.mem_range] at hi
    unfold SiaFile.saveChunk
    rw [hsf1path, hsf1chunks, getD_replicate _ _ hi, marshalChunk_emptyChunk]
    have hco : sf1.chunkOffset i = F + i * slot := by
      unfold SiaFile.chunkOffset
      rw [show sf1.staticMetadata.chunkOffset = F from by rw [hmd1],
        hsf1ppc, hslotdef, Nat.mul_assoc]
    rw [hco]
  -- Apply the relocation updates (all with empty data).
  have hrelocwf : ∀ u ∈ (if F = pageSize then []
      else (List.range n).map fun i =>
        mkInsertUpdate path ((F + i * slot : Nat) : Int) []),
      ∃ off : Nat, off < 2 ^ 63 ∧ u = mkInsertUpdate path (off : Int) [] := by
    intro u hu
    by_cases hcase : F = pageSize
    · rw [if_pos hcase] at hu
      simp at hu
    · rw [if_neg hcase] at hu
      obtain ⟨i, hi, rfl⟩ := List.mem_map.mp hu
      rw [List.mem_range] at hi
      refine ⟨F + i * slot, ?_, rfl⟩
      have : i * slot ≤ n * slot := Nat.mul_le_mul_right slot (by omega)
      have : n * slot ≤ (n + 1) * slot := Nat.mul_le_mul_right slot (by omega)
      omega
  obtain ⟨d1, hd1run, hd1getD, hd1write, hd1other⟩ :=
    ApplyUpdates_empty_inserts hpath _ emptyDisk hrelocwf
  -- Apply the metadata update.
  have hmdne : marshalMetadata sf1.staticMetadata ≠ [] := by
    intro hcon
    have := hmd1len
    rw [hcon] at this
    simp at this
    omega
  have hmdapp := @applyUpdate_insert d1 path 0
    (marshalMetadata sf1.staticMetadata) hpath (by norm_num)
    (by rw [hmd1len]; omega)
  rw [hd1getD, show (emptyDisk path).getD [] = [] from rfl] at hmdapp
  rw [writeAtBytes_append _ (by simp) hmdne] at hmdapp
  simp only [List.length_nil, Nat.sub_zero, List.replicate_zero,
    List.nil_append, List.append_nil] at hmdapp
  rw [show ((0 : Nat) : Int) = (0 : Int) from rfl] at hmdapp
  -- wait: [] ++ replicate (0 - 0) 0 ++ md = md
  -- Apply the pubKeyTable update.
  set d2 := d1.write path (marshalMetadata sf1.staticMetadata) with hd2
  have hpktne : marshalPubKeyTable ([] : List HostPublicKey) ≠ [] := by
    intro hcon
    have := marshalPubKeyTable_nil_length
    rw [hcon] at this
    simp at this
  have hpktapp := @applyUpdate_insert d2 path (F - 8)
    (marshalPubKeyTable []) hpath (by omega)
    (by rw [marshalPubKeyTable_nil_length]; omega)
  rw [show d2 path = some (marshalMetadata sf1.staticMetadata) from
    Disk.write_self _ _ _] at hpktapp
  simp only [Option.getD_some] at hpktapp
  rw [writeAtBytes_append _ (by rw [hmd1len]; omega) hpktne] at hpktapp
  set c3 := marshalMetadata sf1.staticMetadata
    ++ List.replicate (F - 8 - (marshalMetadata sf1.staticMetadata).length) 0
    ++ marshalPubKeyTable [] with hc3
  set d3 := d2.write path c3 with hd3
  have hc3len : c3.length = F := by
    rw [hc3]
    simp only [List.length_append, List.length_replicate,
      marshalPubKeyTable_nil_length, hmd1len]
    omega
  -- Apply the chunk updates.
  have hd3path : d3 path = some c3 := Disk.write_self _ _ _
  have hchunksapp := ApplyUpdates_emptyChunks hpath hslot1 m F d3 c3 hd3path
    (by omega)
    (by
      rw [← hm]
      have hns : n * slot ≤ (n + 1) * slot :=
        Nat.mul_le_mul_right slot (by omega)
      omega)
  rw [← hm] at hchunksapp
  -- Assemble the full run.
  have hdel0 : sf1.staticMetadata.deleted = false := hsf1del
  have hrun : sf1.createAndApplyTransaction emptyDisk
      ((sf0.saveHeader emptyDisk).2
        ++ (List.range sf0.staticChunks.length).map (fun i => sf1.saveChunk i))
      = .ok (d3.write path (c3
          ++ (List.replicate (F - c3.length) 0 ++ emptyBlob slot n))) := by
    rw [createAndApplyTransaction_eq _ _ _ hdel0, applyUpdates_eq_ApplyUpdates,
      hupd, hchunkupd]
    rw [List.append_assoc, ApplyUpdates_append, hd1run]
    dsimp only
    rw [ApplyUpdates_append]
    rw [show ApplyUpdates d1 [mkInsertUpdate path 0
          (marshalMetadata sf1.staticMetadata),
        mkInsertUpdate path ((F - 8 : Nat) : Int) (marshalPubKeyTable [])]
      = .ok d3 from by
        simp only [ApplyUpdates, hmdapp, ← hd2, hpktapp, ← hc3, ← hd3]]
    dsimp only
    exact hchunksapp
  have hco1 : sf1.staticMetadata.chunkOffset = F := by rw [hmd1]
  have hpo1 : sf1.staticMetadata.pubKeyTableOffset = F - 8 := by rw [hmd1]
  have hfs1 : sf1.staticMetadata.staticFileSize = (fileSize : Int) := rfl
  have hmk1 : sf1.staticMetadata.masterKey = mk.keyBytes := rfl
  have hmode1 : sf1.staticMetadata.fileMode = mode := rfl
  have hec1 : sf1.staticMetadata.staticErasureCode = ec := rfl
  have hps1 : sf1.staticMetadata.staticPieceSize = sectorSize - mk.overhead := rfl
  have hspath1 : sf1.staticMetadata.siaPath = siaPath := rfl
  have hlpath1 : sf1.staticMetadata.localPath = source := rfl
  have hat1 : sf1.staticMetadata.accessTime = now := rfl
  have hct1 : sf1.staticMetadata.changeTime = now := rfl
  have hcrt1 : sf1.staticMetadata.createTime = now := rfl
  have hmt1 : sf1.staticMetadata.modTime = now := rfl
  have hsec : sectorSize = 4194304 := rfl
  refine ⟨sf1, d3.write path (c3
      ++ (List.replicate (F - c3.length) 0 ++ emptyBlob slot n)),
    ?_, hsf1path, hsf1pkt, hsf1chunks, ?_, hec1, hsf1ppc,
    hsf1del, hspath1, hlpath1, hfs1, hps1, ?_, ?_, ?_, ?_, ?_, ?_, ?_⟩
  · show New path siaPath source ec mk fileSize mode now = _
    unfold New
    dsimp only
    rw [← hsf0, ← hsf1, hrun]
  · -- metadata well-formedness
    unfold Metadata.WF
    refine ⟨hverlen1, hmktlen1, by rw [hfs1]; omega, by rw [hfs1]; omega,
      by rw [hmk1]; exact hmk, by rw [hmode1]; exact hmode,
      by rw [hsf1ppc]; exact hppc, by rw [hec1]; exact hec,
      by rw [hps1]; omega, by rw [hspath1]; exact hsp,
      by rw [hlpath1]; exact hsrc,
      by rw [hat1]; exact hnow1, by rw [hat1]; exact hnow2,
      by rw [hct1]; exact hnow1, by rw [hct1]; exact hnow2,
      by rw [hcrt1]; exact hnow1, by rw [hcrt1]; exact hnow2,
      by rw [hmt1]; exact hnow1, by rw [hmt1]; exact hnow2,
      by rw [hco1]; omega, by rw [hpo1]; omega⟩
  · rw [hmd1len, ← hFdef, hco1]
  · rw [hpo1, hco1]
  · rw [hmd1len, hco1]
    exact hLF
  · rw [hmd1len, hL]
  · rw [hco1, hsf1ppc, ← hslotdef]
    exact hFbound
  · -- the on-disk contents
    rw [Disk.write_self, hc3len, Nat.sub_self, List.replicate_zero,
      List.nil_append, hc3, hmd1len, hpo1, hsf1ppc, ← hslotdef]
    simp [List.append_assoc]
  · -- the disk holds no other file
    intro q hq
    rw [Disk.write_other _ _ _ hq, hd3, Disk.write_other _ _ _ hq, hd2,
      Disk.write_other _ _ _ hq, hd1other q hq]
    rfl

/-! ## Claim C1: load after create -/

theorem PubKeyTableWF_nil : PubKeyTableWF [] := by
  constructor
  · norm_num
  · intro e he
    simp at he

/-- Helper: a file created by `New` loads back to the same object. -/
theorem New_loads (path siaPath source : FsPath) (ec : ErasureCoder)
    (mk : MasterKey) (fileSize mode : Nat) (now : Int)
    (h : NewArgsWF path siaPath source ec mk fileSize mode now) :
    ∃ sf d, New path siaPath source ec mk fileSize mode now = .ok (sf, d) ∧
      LoadSiaFile d sf.siaFilePath = .ok sf := by
  obtain ⟨sf0, d0, hNew, hpath0, hpkt, hchunks, hWF, hecEq, hppc, hdel, hsp0,
    hlp0, hfs0, hps0, hcoG, hpoE, hfit, hlen, hbound, hcontents, hother⟩ :=
    New_char path siaPath source ec mk fileSize mode now h
  obtain ⟨hpathlt, hsplt, hsrclt, hmklt, hmkt16, hovlt, hecwf, hminp, hnp1000,
    hfslt, hmodelt, hnowa, hnowb⟩ := h
  refine ⟨sf0, d0, hNew, ?_⟩
  rw [hpath0]
  have hG : (marshalMetadata sf0.staticMetadata).length
      + (List.replicate (sf0.staticMetadata.pubKeyTableOffset
          - (marshalMetadata sf0.staticMetadata).length) 0).length
      = sf0.staticMetadata.pubKeyTableOffset := by
    rw [List.length_replicate]
    omega
  have hpub : sf0.staticMetadata.pubKeyTableOffset
      + (marshalPubKeyTable []).length = sf0.staticMetadata.chunkOffset := by
    rw [marshalPubKeyTable_nil_length]
    omega
  have hnEq : numChunksFor sf0.staticMetadata.staticFileSize.toNat
        sf0.staticMetadata.staticPieceSize
        sf0.staticMetadata.staticErasureCode.minPieces
      = numChunksFor fileSize (sectorSize - mk.overhead) ec.minPieces := by
    rw [hfs0, hps0, hecEq, Int.toNat_natCast]
  have hslot1 : 1 ≤ sf0.staticMetadata.staticPagesPerChunk := by
    rw [hppc]
    exact numChunkPagesRequired_pos ec.numPieces
  have hnp32 : sf0.staticMetadata.staticErasureCode.numPieces < 2 ^ 32 := by
    rw [hecEq]
    omega
  have hload := load_layout hWF PubKeyTableWF_nil hcontents hG hpub hnEq
    hslot1 hnp32
  have heta : (⟨sf0.staticMetadata, [],
      List.replicate (numChunksFor fileSize (sectorSize - mk.overhead)
        ec.minPieces)
        (emptyChunk sf0.staticMetadata.staticErasureCode.numPieces),
      path⟩ : SiaFile) = sf0 := by
    rw [hecEq, ← hchunks, ← hpkt, ← hpath0]
  rw [hload, heta]

/-- C1: For every SiaFile created by `New` and saved to disk,
`LoadSiaFile(s.siaFilePath, wal)` returns an object structurally equal to
`s`: equal metadata (timestamps stored at second precision), equal
pubKeyTable in the same order with the same Used flags, equal chunks,
and equal siaFilePath. -/
theorem c1_load_after_new (path siaPath source : FsPath) (ec : ErasureCoder)
    (mk : MasterKey) (fileSize mode : Nat) (now : Int)
    (h : NewArgsWF path siaPath source ec mk fileSize mode now) :
    ∃ sf d, New path siaPath source ec mk fileSize mode now = .ok (sf, d) ∧
      LoadSiaFile d sf.siaFilePath = .ok sf :=
  New_loads path siaPath source ec mk fileSize mode now h

/-- Witness for C1 at a concrete input. -/
theorem c1_load_after_new_witness :
    NewArgsWF [97] [98] [99] (.rsCode 1 1)
      ⟨[5], List.replicate 16 0, 0⟩ 1 0 0 ∧
    ∃ sf d, New [97] [98] [99] (.rsCode 1 1)
        ⟨[5], List.replicate 16 0, 0⟩ 1 0 0 = .ok (sf, d) ∧
      LoadSiaFile d sf.siaFilePath = .ok sf :=
  ⟨by decide, c1_load_after_new [97] [98] [99] (.rsCode 1 1)
    ⟨[5], List.replicate 16 0, 0⟩ 1 0 0 (by decide)⟩

/-! ## Claim C5: on-disk size and final-chunk extent -/

/-- C5: For every SiaFile with N chunks written by `New`, the on-disk
file size equals `chunkOffset(N−1)` plus the marshaled length of the
final chunk; the final chunk's slot is not padded to
`StaticPagesPerChunk·PAGE_SIZE` while every earlier chunk occupies a
full slot at `chunkOffset(i)` holding its marshaled bytes, and
`LoadSiaFile` accepts this short final extent. -/
theorem c5_file_layout (path siaPath source : FsPath) (ec : ErasureCoder)
    (mk : MasterKey) (fileSize mode : Nat) (now : Int)
    (h : NewArgsWF path siaPath source ec mk fileSize mode now) :
    ∃ sf d c, New path siaPath source ec mk fileSize mode now = .ok (sf, d) ∧
      d sf.siaFilePath = some c ∧
      1 ≤ sf.staticChunks.length ∧
      c.length = sf.chunkOffset (sf.staticChunks.length - 1)
        + (marshalChunk (sf.staticChunks.getD (sf.staticChunks.length - 1)
            (emptyChunk 0))).length ∧
      (∀ i, i + 1 < sf.staticChunks.length →
        sf.chunkOffset i + sf.staticMetadata.staticPagesPerChunk * pageSize
          ≤ c.length ∧
        readRange c (sf.chunkOffset i)
            (marshalChunk (sf.staticChunks.getD i (emptyChunk 0))).length
          = marshalChunk (sf.staticChunks.getD i (emptyChunk 0))) ∧
      readRange c (sf.chunkOffset (sf.staticChunks.length - 1))
          (marshalChunk (sf.staticChunks.getD (sf.staticChunks.length - 1)
            (emptyChunk 0))).length
        = marshalChunk (sf.staticChunks.getD (sf.staticChunks.length - 1)
            (emptyChunk 0)) ∧
      LoadSiaFile d sf.siaFilePath = .ok sf := by
  obtain ⟨sf0, d0, hNew', hpath0, hpkt, hchunks, hWF, hecEq, hppc, hdel,
    hsp0, hlp0, hfs0, hps0, hcoG, hpoE, hfit, hlen, hbound, hcontents,
    hother⟩ :=
    New_char path siaPath source ec mk fileSize mode now h
  obtain ⟨sfL, dL, hNewL, hload⟩ :=
    New_loads path siaPath source ec mk fileSize mode now h
  obtain ⟨hpathlt, hsplt, hsrclt, hmklt, hmkt16, hovlt, hecwf, hminp, hnp1000,
    hfslt, hmodelt, hnowa, hnowb⟩ := h
  rw [hNew'] at hNewL
  injection hNewL with hNewL
  injection hNewL with h1 h2
  subst h1
  subst h2
  set n := numChunksFor fileSize (sectorSize - mk.overhead) ec.minPieces
    with hn
  obtain ⟨m, hm⟩ : ∃ m, n = m + 1 := by
    have := numChunksFor_pos fileSize (sectorSize - mk.overhead) ec.minPieces
    exact ⟨n - 1, by omega⟩
  set slot := sf0.staticMetadata.staticPagesPerChunk * pageSize with hslot
  have hslot1 : 1 ≤ slot := by
    rw [hslot, hppc]
    have h1 := numChunkPagesRequired_pos ec.numPieces
    calc 1 = 1 * 1 := rfl
    _ ≤ numChunkPagesRequired ec.numPieces * pageSize :=
      Nat.mul_le_mul h1 (by norm_num [pageSize])
  set c := marshalMetadata sf0.staticMetadata
    ++ (List.replicate (sf0.staticMetadata.pubKeyTableOffset
          - (marshalMetadata sf0.staticMetadata).length) 0
      ++ (marshalPubKeyTable [] ++ emptyBlob slot n)) with hc
  -- c splits as a header block of length ChunkOffset followed by the blob.
  have hcsplit : c = (marshalMetadata sf0.staticMetadata
      ++ List.replicate (sf0.staticMetadata.pubKeyTableOffset
          - (marshalMetadata sf0.staticMetadata).length) 0
      ++ marshalPubKeyTable []) ++ emptyBlob slot n := by
    rw [hc]
    simp [List.append_assoc]
  have hbaselen : (marshalMetadata sf0.staticMetadata
      ++ List.replicate (sf0.staticMetadata.pubKeyTableOffset
          - (marshalMetadata sf0.staticMetadata).length) 0
      ++ marshalPubKeyTable []).length = sf0.staticMetadata.chunkOffset := by
    simp only [List.length_append, List.length_replicate,
      marshalPubKeyTable_nil_length]
    omega
  have hbloblen : (emptyBlob slot n).length = (n - 1) * slot + 1 := by
    rw [emptyBlob_length hslot1 n (by omega)]
  have hclen : c.length = sf0.staticMetadata.chunkOffset + (n - 1) * slot + 1 := by
    rw [hcsplit]
    simp only [List.length_append, hbaselen, hbloblen]
    omega
  have hN : sf0.staticChunks.length = n := by
    rw [hchunks, List.length_replicate]
  have hoffi : ∀ i, sf0.chunkOffset i
      = sf0.staticMetadata.chunkOffset + i * slot := by
    intro i
    unfold SiaFile.chunkOffset
    rw [hslot, Nat.mul_assoc]
  have hgetD : ∀ i, i < n →
      sf0.staticChunks.getD i (emptyChunk 0) = emptyChunk ec.numPieces := by
    intro i hi
    rw [hchunks, getD_replicate _ _ hi]
  have hslice1 : ∀ i, i < n → readRange c (sf0.staticMetadata.chunkOffset
      + i * slot) 1 = [0] := by
    intro i hi
    obtain ⟨k, hk⟩ := emptyBlob_slice hslot1 n i hi
    rw [hcsplit, show sf0.staticMetadata.chunkOffset + i * slot
      = (marshalMetadata sf0.staticMetadata
        ++ List.replicate (sf0.staticMetadata.pubKeyTableOffset
            - (marshalMetadata sf0.staticMetadata).length) 0
        ++ marshalPubKeyTable []).length + i * slot by rw [hbaselen],
      readRange_shift]
    have h1 : readRange (emptyBlob slot n) (i * slot) 1
        = (readRange (emptyBlob slot n) (i * slot) slot).take 1 := by
      rw [readRange, readRange, List.take_take,
        show min 1 slot = 1 by omega]
    rw [h1, hk]
    rfl
  refine ⟨sf0, d0, c, hNew', by rw [hpath0, hcontents, hc], by omega, ?_, ?_,
    ?_, by rw [hpath0] at hload ⊢; exact hload⟩
  · rw [hclen, hN, hoffi (n - 1), hgetD (n - 1) (by omega),
      marshalChunk_emptyChunk]
    simp
  · intro i hi
    rw [hN] at hi
    constructor
    · rw [hoffi i, hclen]
      have h1 : (i + 1) * slot ≤ (n - 1) * slot :=
        Nat.mul_le_mul_right slot (by omega)
      have h2 : (i + 1) * slot = i * slot + slot := by ring
      omega
    · rw [hgetD i (by omega), marshalChunk_emptyChunk, hoffi i]
      exact hslice1 i (by omega)
  · rw [hN, hgetD (n - 1) (by omega), marshalChunk_emptyChunk, hoffi (n - 1)]
    exact hslice1 (n - 1) (by omega)

/-- Witness for C5 at a concrete input. -/
theorem c5_file_layout_witness :
    NewArgsWF [97] [98] [99] (.rsCode 1 1)
      ⟨[5], List.replicate 16 0, 0⟩ 1 0 0 ∧
    ∃ sf d c, New [97] [98] [99] (.rsCode 1 1)
        ⟨[5], List.replicate 16 0, 0⟩ 1 0 0 = .ok (sf, d) ∧
      d sf.siaFilePath = some c ∧
      1 ≤ sf.staticChunks.length ∧
      c.length = sf.chunkOffset (sf.staticChunks.length - 1)
        + (marshalChunk (sf.staticChunks.getD (sf.staticChunks.length - 1)
            (emptyChunk 0))).length ∧
      (∀ i, i + 1 < sf.staticChunks.length →
        sf.chunkOffset i + sf.staticMetadata.staticPagesPerChunk * pageSize
          ≤ c.length ∧
        readRange c (sf.chunkOffset i)
            (marshalChunk (sf.staticChunks.getD i (emptyChunk 0))).length
          = marshalChunk (sf.staticChunks.getD i (emptyChunk 0))) ∧
      readRange c (sf.chunkOffset (sf.staticChunks.length - 1))
          (marshalChunk (sf.staticChunks.getD (sf.staticChunks.length - 1)
            (emptyChunk 0))).length
        = marshalChunk (sf.staticChunks.getD (sf.staticChunks.length - 1)
            (emptyChunk 0)) ∧
      LoadSiaFile d sf.siaFilePath = .ok sf :=
  ⟨by decide, c5_file_layout [97] [98] [99] (.rsCode 1 1)
    ⟨[5], List.replicate 16 0, 0⟩ 1 0 0 (by decide)⟩

/-! ## Claim C2: serialization round-trips -/

/-- C2: For every value of a serializable type (Metadata, host-key
table, Chunk, Piece, ErasureCoder params), `decode(encode(v)) == v`
(timestamps stored at second precision, so equality is exact); the
metadata decoder tolerates trailing bytes, and `unmarshalChunk`
additionally accepts arbitrary trailing padding after the
`1 + numPieces·marshaledPieceSize` encoded bytes. -/
theorem c2_roundtrips :
    (∀ (md : Metadata) (extra : List Byte), md.WF →
      unmarshalMetadata (marshalMetadata md ++ extra) = some md) ∧
    (∀ t : List HostPublicKey, PubKeyTableWF t →
      unmarshalPubKeyTable (marshalPubKeyTable t) = some t) ∧
    (∀ (c : Chunk) (np : Nat) (pad : List Byte), c.WF np →
      unmarshalChunk np (marshalChunk c ++ pad) = some c ∧
      (marshalChunk c).length = marshaledChunkSize c.numPieces) ∧
    (∀ (i : Nat) (p : Piece), i < 2 ^ 32 → p.WF →
      unmarshalPiece (marshalPiece [] i p) = some (i, p)) ∧
    (∀ ec : ErasureCoder, ec.WF →
      unmarshalErasureCoder (marshalErasureCoder ec).1
        (marshalErasureCoder ec).2 = some ec) := by
  refine ⟨?_, ?_, ?_, ?_, ?_⟩
  · intro md extra hwf
    exact unmarshalMetadata_marshal extra hwf
  · intro t hwf
    have := unmarshalPubKeyTable_marshal [] hwf
    rwa [List.append_nil] at this
  · intro c np pad hwf
    exact ⟨unmarshalChunk_marshalChunk pad hwf, marshalChunk_length hwf⟩
  · intro i p hi hwf
    have := unmarshalPiece_enc [] hi hwf
    rwa [List.append_nil] at this
  · intro ec hwf
    exact unmarshal_marshal_erasureCoder hwf

/-- Witness for C2 at concrete values of each serializable type. -/
theorem c2_roundtrips_witness :
    ((⟨List.replicate 16 0, 0, [4], List.replicate 16 1, 0, 1, .rsCode 1 1,
        0, [7], [8], 0, 0, 0, 0, 4096, 4088, false⟩ : Metadata).WF ∧
      unmarshalMetadata (marshalMetadata
        ⟨List.replicate 16 0, 0, [4], List.replicate 16 1, 0, 1, .rsCode 1 1,
          0, [7], [8], 0, 0, 0, 0, 4096, 4088, false⟩ ++ [9, 9])
        = some ⟨List.replicate 16 0, 0, [4], List.replicate 16 1, 0, 1,
          .rsCode 1 1, 0, [7], [8], 0, 0, 0, 0, 4096, 4088, false⟩) ∧
    (PubKeyTableWF [⟨⟨List.replicate 16 2, [1, 2]⟩, true⟩] ∧
      unmarshalPubKeyTable (marshalPubKeyTable
        [⟨⟨List.replicate 16 2, [1, 2]⟩, true⟩])
        = some [⟨⟨List.replicate 16 2, [1, 2]⟩, true⟩]) ∧
    ((⟨[[⟨0, List.replicate 32 3⟩]]⟩ : Chunk).WF 1 ∧
      unmarshalChunk 1 (marshalChunk ⟨[[⟨0, List.replicate 32 3⟩]]⟩ ++ [5, 5])
        = some ⟨[[⟨0, List.replicate 32 3⟩]]⟩) ∧
    ((⟨1, List.replicate 32 5⟩ : Piece).WF ∧
      unmarshalPiece (marshalPiece [] 3 ⟨1, List.replicate 32 5⟩)
        = some (3, ⟨1, List.replicate 32 5⟩)) ∧
    ((ErasureCoder.rsCode 10 20).WF ∧
      unmarshalErasureCoder (marshalErasureCoder (.rsCode 10 20)).1
        (marshalErasureCoder (.rsCode 10 20)).2 = some (.rsCode 10 20)) :=
  ⟨⟨by decide, c2_roundtrips.1 _ [9, 9] (by decide)⟩,
   ⟨by decide, c2_roundtrips.2.1 _ (by decide)⟩,
   ⟨by decide, (c2_roundtrips.2.2.1 _ 1 [5, 5] (by decide)).1⟩,
   ⟨by decide, c2_roundtrips.2.2.2.1 3 _ (by decide) (by decide)⟩,
   ⟨by decide, c2_roundtrips.2.2.2.2 _ (by decide)⟩⟩

/-! ## Claim C8: update codec -/

/-- C8: `readInsertUpdate(createInsertUpdate(i, d))` returns exactly the
SiaFile's path, `i` and `d`; `readDeleteUpdate(createDeleteUpdate())`
returns exactly the SiaFile's path; an update whose name tag is neither
the insert nor the delete tag yields the unknown-update-kind error. -/
theorem c8_update_codec :
    (∀ (sf : SiaFile) (i : Int) (data : List Byte),
      sf.siaFilePath.length < 2 ^ 64 → -(2 ^ 63) ≤ i → i < 2 ^ 63 →
      data.length < 2 ^ 64 →
      readInsertUpdate (sf.createInsertUpdate i data)
        = some (sf.siaFilePath, i, data)) ∧
    (∀ sf : SiaFile, sf.siaFilePath.length < 2 ^ 64 →
      readDeleteUpdate sf.createDeleteUpdate = some sf.siaFilePath) ∧
    (∀ (d : Disk) (u : Update), u.name ≠ updateInsertName →
      u.name ≠ updateDeleteName → applyUpdate d u = .error .unknownUpdate) := by
  refine ⟨?_, ?_, ?_⟩
  · intro sf i data hpath hi1 hi2 hdata
    exact readInsertUpdate_mk hpath hi1 hi2 hdata
  · intro sf hpath
    exact readDeleteUpdate_mk hpath
  · intro d u hins hdel
    rw [applyUpdate, if_neg hdel, if_neg hins]

/-- A concrete SiaFile used by the witnesses. -/
def sfEx : SiaFile :=
  ⟨⟨List.replicate 16 0, 0, [4], List.replicate 16 1, 0, 1, .rsCode 1 1,
      0, [7], [8], 0, 0, 0, 0, 4096, 4088, false⟩,
    [], [⟨[[], []]⟩], [97]⟩

/-- Witness for C8 at concrete values. -/
theorem c8_update_codec_witness :
    (sfEx.siaFilePath.length < 2 ^ 64 ∧
      readInsertUpdate (sfEx.createInsertUpdate 5 [1, 2, 3])
        = some (sfEx.siaFilePath, 5, [1, 2, 3])) ∧
    (readDeleteUpdate sfEx.createDeleteUpdate = some sfEx.siaFilePath) ∧
    (applyUpdate emptyDisk ⟨"other_update", []⟩
      = .error .unknownUpdate) :=
  ⟨⟨by decide, c8_update_codec.1 sfEx 5 [1, 2, 3] (by decide) (by decide)
      (by decide) (by decide)⟩,
   c8_update_codec.2.1 sfEx (by decide),
   c8_update_codec.2.2 emptyDisk ⟨"other_update", []⟩ (by decide) (by decide)⟩

/-! ## Claim C7: the three appliers have the same disk effect -/

/-- C7: applying one insert update built by `createInsertUpdate` through
each of the free function `ApplyUpdates`, the method `applyUpdates`, and
`createAndApplyTransaction` produces the identical disk effect, and
reading back at the written offset returns exactly the written bytes. -/
theorem c7_appliers_equal (sf : SiaFile) (d : Disk) (i : Nat)
    (data : List Byte) (hdel : sf.Deleted = false)
    (hpath : sf.siaFilePath.length < 2 ^ 64) (hi : i < 2 ^ 63)
    (hdata : data.length < 2 ^ 64) :
    ∃ d', ApplyUpdates d [sf.createInsertUpdate (i : Int) data] = .ok d' ∧
      sf.applyUpdates d [sf.createInsertUpdate (i : Int) data] = .ok d' ∧
      sf.createAndApplyTransaction d [sf.createInsertUpdate (i : Int) data]
        = .ok d' ∧
      readRange ((d' sf.siaFilePath).getD []) i data.length = data := by
  have happ := @applyUpdate_insert d sf.siaFilePath i data hpath hi hdata
  refine ⟨d.write sf.siaFilePath
    (writeAtBytes ((d sf.siaFilePath).getD []) i data), ?_, ?_, ?_, ?_⟩
  · simp only [ApplyUpdates, SiaFile.createInsertUpdate, happ]
  · rw [applyUpdates_eq_ApplyUpdates]
    simp only [ApplyUpdates, SiaFile.createInsertUpdate, happ]
  · rw [createAndApplyTransaction_eq _ _ _ hdel, applyUpdates_eq_ApplyUpdates]
    simp only [ApplyUpdates, SiaFile.createInsertUpdate, happ]
  · rw [Disk.write_self, Option.getD_some, readRange_writeAtBytes_self]

/-- Witness for C7 at offset 1234 with 100 bytes. -/
theorem c7_appliers_equal_witness :
    sfEx.Deleted = false ∧
    ∃ d', ApplyUpdates emptyDisk
        [sfEx.createInsertUpdate ((1234 : Nat) : Int) (List.replicate 100 7)]
        = .ok d' ∧
      sfEx.applyUpdates emptyDisk
        [sfEx.createInsertUpdate ((1234 : Nat) : Int) (List.replicate 100 7)]
        = .ok d' ∧
      sfEx.createAndApplyTransaction emptyDisk
        [sfEx.createInsertUpdate ((1234 : Nat) : Int) (List.replicate 100 7)]
        = .ok d' ∧
      readRange ((d' sfEx.siaFilePath).getD []) 1234
        (List.replicate 100 7).length = List.replicate 100 7 :=
  ⟨by decide, c7_appliers_equal sfEx emptyDisk 1234 (List.replicate 100 7)
    (by decide) (by decide) (by decide) (by decide)⟩

/-! ## Claim C9: delete semantics -/

/-- C9: after `Delete()` returns successfully, `Deleted()` is true, no
file exists at `siaFilePath`, and a subsequent persistence operation
(`saveHeader` committed through the transaction) returns the
already-deleted error, leaving the disk unchanged (it fails before
producing any disk state). -/
theorem c9_delete (sf : SiaFile) (d : Disk) (hdel : sf.Deleted = false)
    (hpath : sf.siaFilePath.length < 2 ^ 64) :
    ∃ sf1 d1, sf.Delete d = .ok (sf1, d1) ∧
      sf1.Deleted = true ∧
      d1 sf.siaFilePath = none ∧
      sf1.saveHeaderOp d1 = .error .alreadyDeleted := by
  have happ := @applyUpdate_delete d sf.siaFilePath hpath
  refine ⟨{ sf with staticMetadata :=
      { sf.staticMetadata with deleted := true } }, d.erase sf.siaFilePath,
    ?_, rfl, ?_, ?_⟩
  · unfold SiaFile.Delete
    rw [createAndApplyTransaction_eq _ _ _ hdel]
    simp only [SiaFile.applyUpdates, SiaFile.createDeleteUpdate, happ]
  · simp [Disk.erase]
  · unfold SiaFile.saveHeaderOp
    dsimp only
    have hpd : ((({ sf with staticMetadata :=
        { sf.staticMetadata with deleted := true } } :
        SiaFile).saveHeader (d.erase sf.siaFilePath)).1).staticMetadata.deleted
        = true := by
      rw [saveHeader_fst]
    unfold SiaFile.createAndApplyTransaction
    rw [if_pos hpd]

/-- Witness for C9 at a concrete file and disk. -/
theorem c9_delete_witness :
    sfEx.Deleted = false ∧
    ∃ sf1 d1, sfEx.Delete emptyDisk = .ok (sf1, d1) ∧
      sf1.Deleted = true ∧
      d1 sfEx.siaFilePath = none ∧
      sf1.saveHeaderOp d1 = .error .alreadyDeleted :=
  ⟨by decide, c9_delete sfEx emptyDisk (by decide) (by decide)⟩

/-! ## Claim C10: rename -/

theorem writeAtBytes_nil_zero (c : List Byte) : writeAtBytes [] 0 c = c := by
  by_cases hne : c = []
  · subst hne; rfl
  · rw [writeAtBytes_append c (by simp) hne]
    simp

/-- C10: after `Rename(newSiaPath, newFilePath)` returns successfully,
no file exists at the old `siaFilePath`, the file at `newFilePath`
exists and loads to an object equal to the original (same metadata,
host-key table and chunks, with the backing path now `newFilePath`), and
the in-memory `siaFilePath` and metadata `SiaPath` fields equal the new
paths. -/
theorem c10_rename (path siaPath source : FsPath) (ec : ErasureCoder)
    (mk : MasterKey) (fileSize mode : Nat) (now : Int)
    (newSiaPath newFilePath : FsPath)
    (h : NewArgsWF path siaPath source ec mk fileSize mode now)
    (hneq : newFilePath ≠ path) (hnew : newFilePath.length < 2 ^ 64) :
    ∃ sf d, New path siaPath source ec mk fileSize mode now = .ok (sf, d) ∧
    ∃ sf1 d1, sf.Rename d newSiaPath newFilePath = .ok (sf1, d1) ∧
      d1 path = none ∧
      sf1.siaFilePath = newFilePath ∧
      sf1.staticMetadata.siaPath = newSiaPath ∧
      LoadSiaFile d1 newFilePath
        = .ok { sf with siaFilePath := newFilePath } := by
  obtain ⟨sf0, d0, hNew, hpath0, hpkt, hchunks, hWF, hecEq, hppc, hdel, hsp0,
    hlp0, hfs0, hps0, hcoG, hpoE, hfit, hlen, hbound, hcontents, hother⟩ :=
    New_char path siaPath source ec mk fileSize mode now h
  obtain ⟨hpathlt, hsplt, hsrclt, hmklt, hmkt16, hovlt, hecwf, hminp, hnp1000,
    hfslt, hmodelt, hnowa, hnowb⟩ := h
  set n := numChunksFor fileSize (sectorSize - mk.overhead) ec.minPieces
    with hn
  set c := marshalMetadata sf0.staticMetadata
    ++ (List.replicate (sf0.staticMetadata.pubKeyTableOffset
          - (marshalMetadata sf0.staticMetadata).length) 0
      ++ (marshalPubKeyTable []
        ++ emptyBlob (sf0.staticMetadata.staticPagesPerChunk * pageSize) n))
    with hc
  set slot := sf0.staticMetadata.staticPagesPerChunk * pageSize with hslot
  have hslot1 : 1 ≤ slot := by
    rw [hslot, hppc]
    have h1 := numChunkPagesRequired_pos ec.numPieces
    calc 1 = 1 * 1 := rfl
    _ ≤ numChunkPagesRequired ec.numPieces * pageSize :=
      Nat.mul_le_mul h1 (by norm_num [pageSize])
  obtain ⟨m, hm⟩ : ∃ m, n = m + 1 := by
    have := numChunksFor_pos fileSize (sectorSize - mk.overhead) ec.minPieces
    exact ⟨n - 1, by omega⟩
  have hclen : c.length
      = sf0.staticMetadata.chunkOffset + (n - 1) * slot + 1 := by
    rw [hc]
    simp only [List.length_append, List.length_replicate,
      marshalPubKeyTable_nil_length, emptyBlob_length hslot1 n (by omega)]
    omega
  have hcbound : c.length < 2 ^ 64 := by
    have h1 : (n - 1) * slot ≤ (n + 1) * slot :=
      Nat.mul_le_mul_right slot (by omega)
    have h2 : pageSize = 4096 := rfl
    omega
  -- The two updates of the rename transaction.
  have happ1 := @applyUpdate_delete d0 sf0.siaFilePath
    (by rw [hpath0]; exact hpathlt)
  have hget : ((d0.erase sf0.siaFilePath) newFilePath).getD [] = [] := by
    show ((if newFilePath = sf0.siaFilePath then none
      else d0 newFilePath) : Option (List Byte)).getD [] = []
    rw [if_neg (by rw [hpath0]; exact hneq), hother newFilePath hneq]
    rfl
  have happ2 := @applyUpdate_insert (d0.erase sf0.siaFilePath)
    newFilePath 0 c hnew (by norm_num) hcbound
  rw [hget, writeAtBytes_nil_zero,
    show ((0 : Nat) : Int) = (0 : Int) from rfl] at happ2
  refine ⟨sf0, d0, hNew, { sf0 with
      siaFilePath := newFilePath
      staticMetadata :=
        { sf0.staticMetadata with siaPath := newSiaPath } },
    (d0.erase sf0.siaFilePath).write newFilePath c, ?_, ?_, rfl, rfl, ?_⟩
  · unfold SiaFile.Rename
    dsimp only
    rw [createAndApplyTransaction_eq _ _ _ hdel,
      show (d0 sf0.siaFilePath).getD [] = c from by
        rw [hpath0, hcontents]
        rfl]
    simp only [SiaFile.applyUpdates, SiaFile.createDeleteUpdate, happ1, happ2]
  · rw [Disk.write_other _ _ _ (Ne.symm hneq)]
    show (if path = sf0.siaFilePath then none
      else d0 path : Option (List Byte)) = none
    rw [if_pos hpath0.symm]
  · -- load at the new location
    have hd1new : ((d0.erase sf0.siaFilePath).write newFilePath c)
        newFilePath = some c := Disk.write_self _ _ _
    have hG : (marshalMetadata sf0.staticMetadata).length
        + (List.replicate (sf0.staticMetadata.pubKeyTableOffset
            - (marshalMetadata sf0.staticMetadata).length) 0).length
        = sf0.staticMetadata.pubKeyTableOffset := by
      rw [List.length_replicate]
      omega
    have hpub : sf0.staticMetadata.pubKeyTableOffset
        + (marshalPubKeyTable []).length = sf0.staticMetadata.chunkOffset := by
      rw [marshalPubKeyTable_nil_length]
      omega
    have hnEq : numChunksFor sf0.staticMetadata.staticFileSize.toNat
          sf0.staticMetadata.staticPieceSize
          sf0.staticMetadata.staticErasureCode.minPieces = n := by
      rw [hfs0, hps0, hecEq, Int.toNat_natCast]
    have hslot1' : 1 ≤ sf0.staticMetadata.staticPagesPerChunk := by
      rw [hppc]
      exact numChunkPagesRequired_pos ec.numPieces
    have hnp32 : sf0.staticMetadata.staticErasureCode.numPieces < 2 ^ 32 := by
      rw [hecEq]
      omega
    have hload := load_layout hWF PubKeyTableWF_nil hd1new hG hpub hnEq
      hslot1' hnp32
    have heta : (⟨sf0.staticMetadata, [],
        List.replicate n (emptyChunk
          sf0.staticMetadata.staticErasureCode.numPieces),
        newFilePath⟩ : SiaFile)
        = { sf0 with siaFilePath := newFilePath } := by
      rw [hecEq, ← hchunks, ← hpkt]
    rw [hload, heta]

/-- Witness for C10 at a concrete input. -/
theorem c10_rename_witness :
    NewArgsWF [97] [98] [99] (.rsCode 1 1)
      ⟨[5], List.replicate 16 0, 0⟩ 1 0 0 ∧
    ∃ sf d, New [97] [98] [99] (.rsCode 1 1)
        ⟨[5], List.replicate 16 0, 0⟩ 1 0 0 = .ok (sf, d) ∧
    ∃ sf1 d1, sf.Rename d [100] [101] = .ok (sf1, d1) ∧
      d1 [97] = none ∧
      sf1.siaFilePath = [101] ∧
      sf1.staticMetadata.siaPath = [100] ∧
      LoadSiaFile d1 [101] = .ok { sf with siaFilePath := [101] } :=
  ⟨by decide, c10_rename [97] [98] [99] (.rsCode 1 1)
    ⟨[5], List.replicate 16 0, 0⟩ 1 0 0 [100] [101] (by decide) (by decide)
    (by decide)⟩

/-! ## Claim C3: header size reserved by New and growth under host keys -/

/-- The chunk offset recorded by `saveHeader`. -/
theorem saveHeader_chunkOffset (sf : SiaFile) (d : Disk) :
    (sf.saveHeader d).1.staticMetadata.chunkOffset
      = grownOffset sf.staticMetadata.chunkOffset
        ((marshalMetadata sf.staticMetadata).length
          + (marshalPubKeyTable sf.pubKeyTable).length) := rfl

/-- A host-key table entry in the standard format used throughout the
tests: 16-byte algorithm specifier and 32 bytes of key material. -/
def stdEntry : HostPublicKey :=
  ⟨⟨List.replicate 16 0, List.replicate 32 0⟩, false⟩

/-- C3, counterexample: `New` reserves a single page for the header; at
the concrete input below the created file has `ChunkOffset = PAGE_SIZE`,
not `2·PAGE_SIZE` as the claim states. -/
theorem c3_counterexample :
    ∃ sf d, New [97] [98] [99] (.rsCode 1 1)
        ⟨[5], List.replicate 16 0, 0⟩ 1 0 0 = .ok (sf, d) ∧
      sf.staticMetadata.chunkOffset = pageSize ∧
      sf.staticMetadata.chunkOffset ≠ 2 * pageSize := by
  obtain ⟨sf0, d0, hNew, hpath0, hpkt, hchunks, hWF, hecEq, hppc, hdel, hsp0,
    hlp0, hfs0, hps0, hcoG, hpoE, hfit, hlen, hbound, hcontents, hother⟩ :=
    New_char [97] [98] [99] (.rsCode 1 1) ⟨[5], List.replicate 16 0, 0⟩ 1 0 0
      (by decide)
  have hco : sf0.staticMetadata.chunkOffset = pageSize := by
    rw [hcoG, hlen]
    exact grownOffset_of_le (by decide)
  exact ⟨sf0, d0, hNew, hco, by rw [hco]; decide⟩

/-- C3, corrected: `New` reserves one page for the header
(`ChunkOffset = PAGE_SIZE`, one page below the claimed `2·PAGE_SIZE`);
with 10 standard host keys the header still fits and `saveHeader` keeps
`ChunkOffset = PAGE_SIZE`, while with 100 standard keys `saveHeader`
grows the header by one page to `ChunkOffset = 2·PAGE_SIZE`. -/
theorem c3_header_growth (path siaPath source : FsPath) (ec : ErasureCoder)
    (mk : MasterKey) (fileSize mode : Nat) (now : Int)
    (h : NewArgsWF path siaPath source ec mk fileSize mode now)
    (hsmall : mk.keyBytes.length + siaPath.length + source.length ≤ 1538)
    (t10 t100 : List HostPublicKey)
    (h10len : t10.length = 10) (h100len : t100.length = 100)
    (h10wf : ∀ e ∈ t10, e.WF ∧ e.publicKey.key.length = 32)
    (h100wf : ∀ e ∈ t100, e.WF ∧ e.publicKey.key.length = 32) :
    ∃ sf d, New path siaPath source ec mk fileSize mode now = .ok (sf, d) ∧
      sf.staticMetadata.chunkOffset = pageSize ∧
      ({ sf with pubKeyTable := t10 }.saveHeader
          d).1.staticMetadata.chunkOffset = pageSize ∧
      ({ sf with pubKeyTable := t100 }.saveHeader
          d).1.staticMetadata.chunkOffset = 2 * pageSize := by
  obtain ⟨sf0, d0, hNew, hpath0, hpkt, hchunks, hWF, hecEq, hppc, hdel, hsp0,
    hlp0, hfs0, hps0, hcoG, hpoE, hfit, hlen, hbound, hcontents, hother⟩ :=
    New_char path siaPath source ec mk fileSize mode now h
  have hps : pageSize = 4096 := rfl
  have hco : sf0.staticMetadata.chunkOffset = pageSize := by
    rw [hcoG]
    exact grownOffset_of_le (by omega)
  refine ⟨sf0, d0, hNew, hco, ?_, ?_⟩
  · rw [saveHeader_chunkOffset]
    show grownOffset sf0.staticMetadata.chunkOffset
      ((marshalMetadata sf0.staticMetadata).length
        + (marshalPubKeyTable t10).length) = pageSize
    rw [hco, marshalPubKeyTable_length_std h10wf, h10len]
    exact grownOffset_of_le (by omega)
  · rw [saveHeader_chunkOffset]
    show grownOffset sf0.staticMetadata.chunkOffset
      ((marshalMetadata sf0.staticMetadata).length
        + (marshalPubKeyTable t100).length) = 2 * pageSize
    rw [hco, marshalPubKeyTable_length_std h100wf, h100len,
      grownOffset_one_page (by omega) (by omega)]
    omega

/-- Witness for the corrected C3 at a concrete input. -/
theorem c3_header_growth_witness :
    NewArgsWF [97] [98] [99] (.rsCode 1 1)
      ⟨[5], List.replicate 16 0, 0⟩ 1 0 0 ∧
    (∀ e ∈ List.replicate 10 stdEntry, e.WF ∧ e.publicKey.key.length = 32) ∧
    (∀ e ∈ List.replicate 100 stdEntry, e.WF ∧ e.publicKey.key.length = 32) ∧
    ∃ sf d, New [97] [98] [99] (.rsCode 1 1)
        ⟨[5], List.replicate 16 0, 0⟩ 1 0 0 = .ok (sf, d) ∧
      sf.staticMetadata.chunkOffset = pageSize ∧
      ({ sf with pubKeyTable := List.replicate 10 stdEntry }.saveHeader
          d).1.staticMetadata.chunkOffset = pageSize ∧
      ({ sf with pubKeyTable := List.replicate 100 stdEntry }.saveHeader
          d).1.staticMetadata.chunkOffset = 2 * pageSize :=
  ⟨by decide, by decide, by decide,
    c3_header_growth [97] [98] [99] (.rsCode 1 1)
      ⟨[5], List.replicate 16 0, 0⟩ 1 0 0 (by decide) (by decide)
      (List.replicate 10 stdEntry) (List.replicate 100 stdEntry)
      (by decide) (by decide) (by decide) (by decide)⟩

/-! ## Claim C4: header growth relocates the chunk region intact -/

/-- A read window is bounded by the requested length. -/
theorem readRange_length_le (c : List Byte) (off n : Nat) :
    (readRange c off n).length ≤ n := by
  simp only [readRange, List.length_take, List.length_drop]
  omega

/-- Applying insert updates that all lie entirely below or entirely
above a window leaves the window's bytes unchanged. -/
theorem ApplyUpdates_window {path : FsPath} (hpath : path.length < 2 ^ 64) :
    ∀ (l : List Update) (d : Disk) (off n : Nat),
      (∀ u ∈ l, ∃ o : Nat, ∃ dt : List Byte, o < 2 ^ 63 ∧
        dt.length < 2 ^ 64 ∧ u = mkInsertUpdate path (o : Int) dt ∧
        (o + dt.length ≤ off ∨ off + n ≤ o)) →
      off + n ≤ ((d path).getD []).length →
      ∃ d', ApplyUpdates d l = .ok d' ∧
        readRange ((d' path).getD []) off n
          = readRange ((d path).getD []) off n := by
  intro l
  induction l with
  | nil => exact fun d off n h hlen => ⟨d, rfl, rfl⟩
  | cons u l ih =>
    intro d off n h hlen
    obtain ⟨o, dt, ho, hdt, huu, hside⟩ := h u (by simp)
    subst huu
    have happ := applyUpdate_insert d hpath ho hdt
    have hwlen : off + n
        ≤ (writeAtBytes ((d path).getD []) o dt).length := by
      by_cases hne : dt = []
      · subst hne
        rw [writeAtBytes_empty]
        exact hlen
      · rw [writeAtBytes_length hne]
        omega
    obtain ⟨d', hok, hpres⟩ := ih
      (d.write path (writeAtBytes ((d path).getD []) o dt)) off n
      (fun u hu => h u (by simp [hu]))
      (by rw [Disk.write_self]; exact hwlen)
    refine ⟨d', ?_, ?_⟩
    · simp only [ApplyUpdates, happ, hok]
    · rw [hpres, Disk.write_self]
      show readRange (writeAtBytes ((d path).getD []) o dt) off n
        = readRange ((d path).getD []) off n
      rcases hside with hbelow | habove
      · exact readRange_writeAtBytes_below hbelow
      · exact readRange_writeAtBytes_above habove hlen

/-- A run of well-formed insert updates applies cleanly; packaged with
an arbitrary disk-independent postcondition. -/
theorem ApplyUpdates_ok_and {path : FsPath} (hpath : path.length < 2 ^ 64)
    (l : List Update) (d : Disk) {P : Disk → Prop}
    (h : ∀ u ∈ l, ∃ o : Nat, ∃ dt : List Byte, o < 2 ^ 63 ∧
      dt.length < 2 ^ 64 ∧ u = mkInsertUpdate path (o : Int) dt)
    (hP : ∀ d', P d') :
    ∃ d', ApplyUpdates d l = .ok d' ∧ P d' := by
  obtain ⟨d', hok⟩ := ApplyUpdates_inserts_ok hpath l d h
  exact ⟨d', hok, hP d'⟩

/-- A leading insert followed by window-disjoint inserts: the leading
write is read back intact after the whole run. -/
theorem ApplyUpdates_head_window {path : FsPath} (hpath : path.length < 2 ^ 64)
    (d : Disk) (c : List Byte) (hd : d path = some c)
    (off : Nat) (data : List Byte) (l : List Update)
    (hoff : off < 2 ^ 63) (hdata : data.length < 2 ^ 64) (hne : data ≠ [])
    (hside : ∀ u ∈ l, ∃ o : Nat, ∃ dt : List Byte, o < 2 ^ 63 ∧
      dt.length < 2 ^ 64 ∧ u = mkInsertUpdate path (o : Int) dt ∧
      (o + dt.length ≤ off ∨ off + data.length ≤ o)) :
    ∃ d', ApplyUpdates d (mkInsertUpdate path (off : Int) data :: l)
        = .ok d' ∧
      readRange ((d' path).getD []) off data.length = data := by
  have happ := applyUpdate_insert d hpath hoff hdata
  rw [hd] at happ
  simp only [Option.getD_some] at happ
  have hlen1 : off + data.length ≤ (writeAtBytes c off data).length := by
    rw [writeAtBytes_length hne]
    omega
  obtain ⟨d', hok, hpres⟩ := ApplyUpdates_window hpath l
    (d.write path (writeAtBytes c off data)) off data.length hside
    (by rw [Disk.write_self]; exact hlen1)
  refine ⟨d', ?_, ?_⟩
  · simp only [ApplyUpdates, happ, hok]
  · rw [hpres, Disk.write_self]
    show readRange (writeAtBytes c off data) off data.length = data
    exact readRange_writeAtBytes_self

/-- C4: when `saveHeader` grows the header region because the host-key
table would overflow one page, `ChunkOffset` increases by exactly one
`PAGE_SIZE`, and the bytes that were on disk immediately after the old
`ChunkOffset` (the first chunk slot) are found, byte for byte, at the
new `ChunkOffset` once the transaction's updates are applied. -/
theorem c4_growth_relocation (sf : SiaFile) (d : Disk) (c : List Byte)
    (hpath : sf.siaFilePath.length < 2 ^ 64)
    (hd : d sf.siaFilePath = some c)
    (hWF : sf.staticMetadata.WF)
    (hchunks1 : 1 ≤ sf.staticChunks.length)
    (hgrow1 : sf.staticMetadata.chunkOffset
      < (marshalMetadata sf.staticMetadata).length
        + (marshalPubKeyTable sf.pubKeyTable).length)
    (hgrow2 : (marshalMetadata sf.staticMetadata).length
        + (marshalPubKeyTable sf.pubKeyTable).length
      ≤ sf.staticMetadata.chunkOffset + pageSize)
    (hbound : sf.staticMetadata.chunkOffset + pageSize
      + sf.staticChunks.length
        * (sf.staticMetadata.staticPagesPerChunk * pageSize) < 2 ^ 63) :
    (sf.saveHeader d).1.staticMetadata.chunkOffset
      = sf.staticMetadata.chunkOffset + pageSize ∧
    ∃ d', ApplyUpdates d (sf.saveHeader d).2 = .ok d' ∧
      readRange ((d' sf.siaFilePath).getD [])
          (sf.staticMetadata.chunkOffset + pageSize)
          (readRange c sf.staticMetadata.chunkOffset
            (sf.staticMetadata.staticPagesPerChunk * pageSize)).length
        = readRange c sf.staticMetadata.chunkOffset
            (sf.staticMetadata.staticPagesPerChunk * pageSize) := by
  obtain ⟨h1, h2, h3, h4, h5, h6, h7, h8, h9, h10, h11, h12, h13, h14, h15,
    h16, h17, h18, h19, h20, h21⟩ := hWF
  have hps : pageSize = 4096 := rfl
  have hgO : grownOffset sf.staticMetadata.chunkOffset
      ((marshalMetadata sf.staticMetadata).length
        + (marshalPubKeyTable sf.pubKeyTable).length)
      = sf.staticMetadata.chunkOffset + pageSize :=
    grownOffset_one_page hgrow1 hgrow2
  have hmdlen := marshalMetadata_length sf.staticMetadata h1 h2
  have hmd1len : (marshalMetadata { sf.staticMetadata with
      chunkOffset := sf.staticMetadata.chunkOffset + pageSize
      pubKeyTableOffset := sf.staticMetadata.chunkOffset + pageSize
        - (marshalPubKeyTable sf.pubKeyTable).length }).length
      = (marshalMetadata sf.staticMetadata).length := by
    rw [marshalMetadata_length { sf.staticMetadata with
        chunkOffset := sf.staticMetadata.chunkOffset + pageSize
        pubKeyTableOffset := sf.staticMetadata.chunkOffset + pageSize
          - (marshalPubKeyTable sf.pubKeyTable).length } h1 h2, hmdlen]
  have hNslot : sf.staticMetadata.staticPagesPerChunk * pageSize
      ≤ sf.staticChunks.length
        * (sf.staticMetadata.staticPagesPerChunk * pageSize) :=
    Nat.le_mul_of_pos_left _ (by omega)
  have hL := readRange_length_le c sf.staticMetadata.chunkOffset
    (sf.staticMetadata.staticPagesPerChunk * pageSize)
  constructor
  · rw [saveHeader_chunkOffset, hgO]
  · rw [saveHeader_snd, hgO, if_neg (by omega), hd]
    simp only [Option.getD_some]
    obtain ⟨N', hN⟩ : ∃ N', sf.staticChunks.length = N' + 1 :=
      ⟨sf.staticChunks.length - 1, by omega⟩
    rw [hN, List.range_succ_eq_map, List.map_cons, List.map_map,
      List.cons_append]
    simp only [Nat.zero_mul, Nat.add_zero]
    by_cases hLnil : readRange c sf.staticMetadata.chunkOffset
        (sf.staticMetadata.staticPagesPerChunk * pageSize) = []
    · rw [hLnil]
      refine ApplyUpdates_ok_and hpath _ d ?_ ?_
      · intro u hu
        rcases List.mem_cons.mp hu with h0 | hu'
        · exact ⟨sf.staticMetadata.chunkOffset + pageSize, [],
            by omega, by simp, h0⟩
        · rcases List.mem_append.mp hu' with hm | hlast
          · obtain ⟨j, hjmem, rfl⟩ := List.mem_map.mp hm
            have hj := List.mem_range.mp hjmem
            refine ⟨sf.staticMetadata.chunkOffset + pageSize + (j + 1)
                * (sf.staticMetadata.staticPagesPerChunk * pageSize),
              readRange c (sf.staticMetadata.chunkOffset + (j + 1)
                * (sf.staticMetadata.staticPagesPerChunk * pageSize))
                (sf.staticMetadata.staticPagesPerChunk * pageSize),
              ?_, ?_, rfl⟩
            · have hmul : (j + 1)
                  * (sf.staticMetadata.staticPagesPerChunk * pageSize)
                  ≤ sf.staticChunks.length
                    * (sf.staticMetadata.staticPagesPerChunk * pageSize) :=
                Nat.mul_le_mul_right _ (by omega)
              omega
            · have := readRange_length_le c (sf.staticMetadata.chunkOffset
                + (j + 1) * (sf.staticMetadata.staticPagesPerChunk * pageSize))
                (sf.staticMetadata.staticPagesPerChunk * pageSize)
              omega
          · rcases List.mem_cons.mp hlast with hmd | hlast2
            · refine ⟨0, marshalMetadata { sf.staticMetadata with
                  chunkOffset := sf.staticMetadata.chunkOffset + pageSize
                  pubKeyTableOffset := sf.staticMetadata.chunkOffset + pageSize
                    - (marshalPubKeyTable sf.pubKeyTable).length },
                by omega, ?_, hmd⟩
              rw [hmd1len]
              omega
            · rcases List.mem_cons.mp hlast2 with hpk | habs
              · exact ⟨sf.staticMetadata.chunkOffset + pageSize
                    - (marshalPubKeyTable sf.pubKeyTable).length,
                  marshalPubKeyTable sf.pubKeyTable,
                  by omega, by omega, hpk⟩
              · exact absurd habs (List.not_mem_nil u)
      · intro d'
        simp [readRange]
    · apply ApplyUpdates_head_window hpath d c hd
      · omega
      · omega
      · exact hLnil
      · intro u hu
        rcases List.mem_append.mp hu with hm | hlast
        · obtain ⟨j, hjmem, rfl⟩ := List.mem_map.mp hm
          have hj := List.mem_range.mp hjmem
          refine ⟨sf.staticMetadata.chunkOffset + pageSize + (j + 1)
              * (sf.staticMetadata.staticPagesPerChunk * pageSize),
            readRange c (sf.staticMetadata.chunkOffset + (j + 1)
              * (sf.staticMetadata.staticPagesPerChunk * pageSize))
              (sf.staticMetadata.staticPagesPerChunk * pageSize),
            ?_, ?_, rfl, ?_⟩
          · have hmul : (j + 1)
                * (sf.staticMetadata.staticPagesPerChunk * pageSize)
                ≤ sf.staticChunks.length
                  * (sf.staticMetadata.staticPagesPerChunk * pageSize) :=
              Nat.mul_le_mul_right _ (by omega)
            omega
          · have := readRange_length_le c (sf.staticMetadata.chunkOffset
              + (j + 1) * (sf.staticMetadata.staticPagesPerChunk * pageSize))
              (sf.staticMetadata.staticPagesPerChunk * pageSize)
            omega
          · refine Or.inr ?_
            have hj1 : sf.staticMetadata.staticPagesPerChunk * pageSize
                ≤ (j + 1)
                  * (sf.staticMetadata.staticPagesPerChunk * pageSize) :=
              Nat.le_mul_of_pos_left _ (by omega)
            omega
        · rcases List.mem_cons.mp hlast with hmd | hlast2
          · refine ⟨0, marshalMetadata { sf.staticMetadata with
                chunkOffset := sf.staticMetadata.chunkOffset + pageSize
                pubKeyTableOffset := sf.staticMetadata.chunkOffset + pageSize
                  - (marshalPubKeyTable sf.pubKeyTable).length },
              by omega, ?_, hmd, Or.inl ?_⟩
            · rw [hmd1len]
              omega
            · rw [hmd1len]
              omega
          · rcases List.mem_cons.mp hlast2 with hpk | habs
            · exact ⟨sf.staticMetadata.chunkOffset + pageSize
                  - (marshalPubKeyTable sf.pubKeyTable).length,
                marshalPubKeyTable sf.pubKeyTable,
                by omega, by omega, hpk, Or.inl (by omega)⟩
            · exact absurd habs (List.not_mem_nil u)

/-- A concrete header record sized so that 61 standard host keys
overflow the single header page. -/
def mdC4 : Metadata :=
  ⟨List.replicate 16 0, 0, [], List.replicate 16 0, 0, 1, .rsCode 1 1, 1,
    [], [], 0, 0, 0, 0, pageSize, pageSize - 8, false⟩

/-- A concrete SiaFile whose host-key table overflows one header page. -/
def sfC4 : SiaFile := ⟨mdC4, List.replicate 61 stdEntry, [emptyChunk 2], [97]⟩

/-- A concrete disk holding three bytes at `sfC4`'s backing path. -/
def dC4 : Disk := Disk.write emptyDisk [97] [1, 2, 3]

/-- Marshaled length of the concrete header record. -/
theorem c4_mdlen : (marshalMetadata sfC4.staticMetadata).length = 146 := by
  rw [show sfC4.staticMetadata = mdC4 from rfl,
    marshalMetadata_length mdC4 (by decide) (by decide)]
  decide

/-- Marshaled length of the concrete 61-entry host-key table. -/
theorem c4_pktlen : (marshalPubKeyTable sfC4.pubKeyTable).length = 3973 := by
  rw [show sfC4.pubKeyTable = List.replicate 61 stdEntry from rfl,
    marshalPubKeyTable_length_std (by decide)]
  decide

/-- Witness for C4 at a concrete input. -/
theorem c4_growth_relocation_witness :
    sfC4.siaFilePath.length < 2 ^ 64 ∧
    dC4 sfC4.siaFilePath = some [1, 2, 3] ∧
    sfC4.staticMetadata.WF ∧
    1 ≤ sfC4.staticChunks.length ∧
    sfC4.staticMetadata.chunkOffset
      < (marshalMetadata sfC4.staticMetadata).length
        + (marshalPubKeyTable sfC4.pubKeyTable).length ∧
    (marshalMetadata sfC4.staticMetadata).length
        + (marshalPubKeyTable sfC4.pubKeyTable).length
      ≤ sfC4.staticMetadata.chunkOffset + pageSize ∧
    sfC4.staticMetadata.chunkOffset + pageSize
      + sfC4.staticChunks.length
        * (sfC4.staticMetadata.staticPagesPerChunk * pageSize) < 2 ^ 63 ∧
    ((sfC4.saveHeader dC4).1.staticMetadata.chunkOffset
        = sfC4.staticMetadata.chunkOffset + pageSize ∧
      ∃ d', ApplyUpdates dC4 (sfC4.saveHeader dC4).2 = .ok d' ∧
        readRange ((d' sfC4.siaFilePath).getD [])
            (sfC4.staticMetadata.chunkOffset + pageSize)
            (readRange [1, 2, 3] sfC4.staticMetadata.chunkOffset
              (sfC4.staticMetadata.staticPagesPerChunk * pageSize)).length
          = readRange [1, 2, 3] sfC4.staticMetadata.chunkOffset
              (sfC4.staticMetadata.staticPagesPerChunk * pageSize)) :=
  ⟨by decide, by rfl, by decide, by decide,
    by rw [c4_mdlen, c4_pktlen]; decide,
    by rw [c4_mdlen, c4_pktlen]; decide,
    by decide,
    c4_growth_relocation sfC4 dC4 [1, 2, 3] (by decide) (by rfl) (by decide)
      (by decide) (by rw [c4_mdlen, c4_pktlen]; decide)
      (by rw [c4_mdlen, c4_pktlen]; decide) (by decide)⟩

/-! ## Claim C6: UpdateUsedHosts flags, order, and persistence -/

/-- C6: `UpdateUsedHosts(usedKeys)` sets each host-key table entry's
`Used` flag to true exactly when that entry's key occurs among the used
keys, preserves the table's order and indices (the new table is the
entrywise image of the old), and persists the header so that reloading
the file with `LoadSiaFile` observes the same flags on the same entries
in the same order. -/
theorem c6_update_used_hosts (path siaPath source : FsPath)
    (ec : ErasureCoder) (mk : MasterKey) (fileSize mode : Nat) (now : Int)
    (h : NewArgsWF path siaPath source ec mk fileSize mode now)
    (T : List HostPublicKey) (used : List SiaPublicKey)
    (hT : ∀ e ∈ T, e.WF ∧ e.publicKey.key.length = 32)
    (hTsmall : mk.keyBytes.length + siaPath.length + source.length
        + 65 * T.length ≤ 3942) :
    ∃ sf d, New path siaPath source ec mk fileSize mode now = .ok (sf, d) ∧
    ∃ sf1 d1, SiaFile.UpdateUsedHosts { sf with pubKeyTable := T } d used
        = .ok (sf1, d1) ∧
      sf1.pubKeyTable = T.map (fun (e : HostPublicKey) =>
        { e with used := keyMatches used e.publicKey.key }) ∧
      (∀ e ∈ T, keyMatches used e.publicKey.key = true ↔
        e.publicKey.key ∈ used.map SiaPublicKey.key) ∧
      LoadSiaFile d1 sf1.siaFilePath = .ok sf1 := by
  obtain ⟨sf0, d0, hNew, hpath0, hpkt, hchunks, hWF, hecEq, hppc, hdel, hsp0,
    hlp0, hfs0, hps0, hcoG, hpoE, hfit, hlen, hbound, hcontents, hother⟩ :=
    New_char path siaPath source ec mk fileSize mode now h
  obtain ⟨hpathlt, hsplt, hsrclt, hmklt, hmkt16, hovlt, hecwf, hminp, hnp1000,
    hfslt, hmodelt, hnowa, hnowb⟩ := h
  obtain ⟨g1, g2, g3, g4, g5, g6, g7, g8, g9, g10, g11, g12, g13, g14, g15,
    g16, g17, g18, g19, g20, g21⟩ := hWF
  have hps : pageSize = 4096 := rfl
  set n := numChunksFor fileSize (sectorSize - mk.overhead) ec.minPieces
    with hn
  set c := marshalMetadata sf0.staticMetadata
    ++ (List.replicate (sf0.staticMetadata.pubKeyTableOffset
          - (marshalMetadata sf0.staticMetadata).length) 0
      ++ (marshalPubKeyTable []
        ++ emptyBlob (sf0.staticMetadata.staticPagesPerChunk * pageSize) n))
    with hc
  set slot := sf0.staticMetadata.staticPagesPerChunk * pageSize with hslot
  have hslot1 : 1 ≤ slot := by
    rw [hslot, hppc]
    have h1 := numChunkPagesRequired_pos ec.numPieces
    calc 1 = 1 * 1 := rfl
    _ ≤ numChunkPagesRequired ec.numPieces * pageSize :=
      Nat.mul_le_mul h1 (by norm_num [pageSize])
  obtain ⟨nm, hnm⟩ : ∃ nm, n = nm + 1 := by
    have := numChunksFor_pos fileSize (sectorSize - mk.overhead) ec.minPieces
    exact ⟨n - 1, by omega⟩
  have hclen : c.length
      = sf0.staticMetadata.chunkOffset + (n - 1) * slot + 1 := by
    rw [hc]
    simp only [List.length_append, List.length_replicate,
      marshalPubKeyTable_nil_length, emptyBlob_length hslot1 n (by omega)]
    omega
  have hco : sf0.staticMetadata.chunkOffset = pageSize := by
    rw [hcoG]
    exact grownOffset_of_le (by omega)
  have hcP : d0 sf0.siaFilePath = some c := by
    rw [hpath0]
    exact hcontents
  have hP64 : sf0.siaFilePath.length < 2 ^ 64 := by
    rw [hpath0]
    exact hpathlt
  set TM := T.map (fun (e : HostPublicKey) =>
    { e with used := keyMatches used e.publicKey.key }) with hTM
  have hT' : ∀ e ∈ TM, e.WF ∧ e.publicKey.key.length = 32 := by
    intro e he
    rw [hTM] at he
    obtain ⟨a, ha, rfl⟩ := List.mem_map.mp he
    exact ⟨⟨(hT a ha).1.1, (hT a ha).1.2⟩, (hT a ha).2⟩
  have hpkl : (marshalPubKeyTable TM).length = 8 + 65 * T.length := by
    rw [marshalPubKeyTable_length_std hT', hTM, List.length_map]
  have hT'wf : PubKeyTableWF TM := by
    refine ⟨?_, fun e he => (hT' e he).1⟩
    rw [hTM, List.length_map]
    omega
  set m1 := { sf0.staticMetadata with
    pubKeyTableOffset := sf0.staticMetadata.chunkOffset
      - (marshalPubKeyTable TM).length } with hm1
  have hm1WF : m1.WF :=
    ⟨g1, g2, g3, g4, g5, g6, g7, g8, g9, g10, g11, g12, g13, g14, g15,
      g16, g17, g18, g19, g20, by
        show sf0.staticMetadata.chunkOffset
          - (marshalPubKeyTable TM).length < 2 ^ 63
        omega⟩
  have hfits : (marshalMetadata sf0.staticMetadata).length
      + (marshalPubKeyTable TM).length
      ≤ sf0.staticMetadata.chunkOffset := by
    rw [hpkl, hlen, hco]
    omega
  have hgO' : grownOffset sf0.staticMetadata.chunkOffset
      ((marshalMetadata sf0.staticMetadata).length
        + (marshalPubKeyTable TM).length)
      = sf0.staticMetadata.chunkOffset := grownOffset_of_le hfits
  have hmd1len : (marshalMetadata m1).length
      = (marshalMetadata sf0.staticMetadata).length := by
    rw [marshalMetadata_length m1 g1 g2,
      marshalMetadata_length sf0.staticMetadata g1 g2]
  have hmdb1lt : (marshalMetadata m1).length < 2 ^ 64 := by
    rw [hmd1len, hlen]
    omega
  have hpklt : (marshalPubKeyTable TM).length < 2 ^ 64 := by
    rw [hpkl]
    omega
  have hofflt : sf0.staticMetadata.chunkOffset
      - (marshalPubKeyTable TM).length < 2 ^ 63 := by
    omega
  have hmdb1ne : marshalMetadata m1 ≠ [] := by
    intro hnil
    have h0 := hmd1len
    rw [hnil, hlen] at h0
    simp at h0
    omega
  have hpktbne : marshalPubKeyTable TM ≠ [] := by
    intro hnil
    have h0 := hpkl
    rw [hnil] at h0
    simp at h0
    omega
  set w1 := writeAtBytes c 0 (marshalMetadata m1) with hw1d
  set w2 := writeAtBytes w1 (sf0.staticMetadata.chunkOffset
    - (marshalPubKeyTable TM).length) (marshalPubKeyTable TM) with hw2d
  have hw1 : w1 = marshalMetadata m1
      ++ c.drop (marshalMetadata sf0.staticMetadata).length := by
    rw [hw1d, writeAtBytes_prefix hmdb1ne (by rw [hmd1len]; omega), hmd1len]
  have hw1len : w1.length = c.length := by
    rw [hw1]
    simp only [List.length_append, hmd1len, List.length_drop]
    omega
  have hdropCO : c.drop sf0.staticMetadata.chunkOffset
      = emptyBlob slot n := by
    rw [hc, ← List.append_assoc, ← List.append_assoc]
    rw [show sf0.staticMetadata.chunkOffset
        = ((marshalMetadata sf0.staticMetadata
          ++ List.replicate (sf0.staticMetadata.pubKeyTableOffset
            - (marshalMetadata sf0.staticMetadata).length) 0)
          ++ marshalPubKeyTable []).length from by
      simp only [List.length_append, List.length_replicate,
        marshalPubKeyTable_nil_length]
      omega]
    exact List.drop_left _ _
  have hCOsub : sf0.staticMetadata.chunkOffset
      - (marshalPubKeyTable TM).length + (marshalPubKeyTable TM).length
      = sf0.staticMetadata.chunkOffset := by
    omega
  have htk1 : (marshalMetadata m1).take
      (sf0.staticMetadata.chunkOffset - (marshalPubKeyTable TM).length)
      = marshalMetadata m1 :=
    List.take_of_length_le (by rw [hmd1len]; omega)
  have hdr1 : (marshalMetadata m1).drop sf0.staticMetadata.chunkOffset
      = [] :=
    List.drop_eq_nil_of_le (by rw [hmd1len]; omega)
  have houter : (marshalMetadata m1
      ++ c.drop (marshalMetadata sf0.staticMetadata).length).drop
        sf0.staticMetadata.chunkOffset = emptyBlob slot n := by
    rw [List.drop_append_eq_append_drop, hdr1, List.nil_append, hmd1len,
      List.drop_drop, show (marshalMetadata sf0.staticMetadata).length
        + (sf0.staticMetadata.chunkOffset
          - (marshalMetadata sf0.staticMetadata).length)
        = sf0.staticMetadata.chunkOffset from by omega, hdropCO]
  have houtertk : (marshalMetadata m1
      ++ c.drop (marshalMetadata sf0.staticMetadata).length).take
        (sf0.staticMetadata.chunkOffset - (marshalPubKeyTable TM).length)
      = marshalMetadata m1
        ++ (c.drop (marshalMetadata sf0.staticMetadata).length).take
            (sf0.staticMetadata.chunkOffset
              - (marshalPubKeyTable TM).length
              - (marshalMetadata sf0.staticMetadata).length) := by
    rw [List.take_append_eq_append_take, htk1, hmd1len]
  have hw2 : w2 = marshalMetadata m1
      ++ ((c.drop (marshalMetadata sf0.staticMetadata).length).take
            (sf0.staticMetadata.chunkOffset
              - (marshalPubKeyTable TM).length
              - (marshalMetadata sf0.staticMetadata).length)
        ++ (marshalPubKeyTable TM ++ emptyBlob slot n)) := by
    rw [hw2d, writeAtBytes_inside hpktbne (by rw [hw1len]; omega), hw1]
    rw [hCOsub, houtertk, houter]
    simp only [List.append_assoc]
  have hctn : ((d0.write sf0.siaFilePath w1).write sf0.siaFilePath w2)
      sf0.siaFilePath = some (marshalMetadata m1
        ++ ((c.drop (marshalMetadata sf0.staticMetadata).length).take
              (sf0.staticMetadata.chunkOffset
                - (marshalPubKeyTable TM).length
                - (marshalMetadata sf0.staticMetadata).length)
          ++ (marshalPubKeyTable TM ++ emptyBlob slot n))) := by
    rw [Disk.write_self, hw2]
  have hG : (marshalMetadata m1).length
      + ((c.drop (marshalMetadata sf0.staticMetadata).length).take
          (sf0.staticMetadata.chunkOffset
            - (marshalPubKeyTable TM).length
            - (marshalMetadata sf0.staticMetadata).length)).length
      = m1.pubKeyTableOffset := by
    show (marshalMetadata m1).length
      + ((c.drop (marshalMetadata sf0.staticMetadata).length).take
          (sf0.staticMetadata.chunkOffset
            - (marshalPubKeyTable TM).length
            - (marshalMetadata sf0.staticMetadata).length)).length
      = sf0.staticMetadata.chunkOffset - (marshalPubKeyTable TM).length
    simp only [List.length_take, List.length_drop, hmd1len]
    omega
  have hpub : m1.pubKeyTableOffset + (marshalPubKeyTable TM).length
      = m1.chunkOffset := by
    show sf0.staticMetadata.chunkOffset - (marshalPubKeyTable TM).length
      + (marshalPubKeyTable TM).length = sf0.staticMetadata.chunkOffset
    omega
  have hnEq : numChunksFor m1.staticFileSize.toNat m1.staticPieceSize
      m1.staticErasureCode.minPieces = n := by
    show numChunksFor sf0.staticMetadata.staticFileSize.toNat
      sf0.staticMetadata.staticPieceSize
      sf0.staticMetadata.staticErasureCode.minPieces = n
    rw [hfs0, hps0, hecEq, Int.toNat_natCast]
  have hslot1' : 1 ≤ m1.staticPagesPerChunk := by
    show 1 ≤ sf0.staticMetadata.staticPagesPerChunk
    rw [hppc]
    exact numChunkPagesRequired_pos ec.numPieces
  have hnp32 : m1.staticErasureCode.numPieces < 2 ^ 32 := by
    show sf0.staticMetadata.staticErasureCode.numPieces < 2 ^ 32
    rw [hecEq]
    omega
  have hload := load_layout hm1WF hT'wf hctn hG hpub hnEq hslot1' hnp32
  have heta : (⟨m1, TM,
      List.replicate n (emptyChunk m1.staticErasureCode.numPieces),
      sf0.siaFilePath⟩ : SiaFile)
      = { sf0 with pubKeyTable := TM, staticMetadata := m1 } := by
    rw [show m1.staticErasureCode = sf0.staticMetadata.staticErasureCode
      from rfl, hecEq, ← hchunks]
  have happA0 := @applyUpdate_insert d0 sf0.siaFilePath
    0 (marshalMetadata m1) hP64 (by norm_num) hmdb1lt
  rw [hcP, show ((0 : Nat) : Int) = (0 : Int) from rfl] at happA0
  simp only [Option.getD_some] at happA0
  rw [← hw1d] at happA0
  have happB0 := @applyUpdate_insert (d0.write sf0.siaFilePath w1)
    sf0.siaFilePath
    (sf0.staticMetadata.chunkOffset - (marshalPubKeyTable TM).length)
    (marshalPubKeyTable TM) hP64 hofflt hpklt
  rw [Disk.write_self] at happB0
  simp only [Option.getD_some] at happB0
  rw [← hw2d] at happB0
  refine ⟨sf0, d0, hNew,
    { sf0 with pubKeyTable := TM, staticMetadata := m1 },
    (d0.write sf0.siaFilePath w1).write sf0.siaFilePath w2,
    ?_, rfl, ?_, ?_⟩
  · unfold SiaFile.UpdateUsedHosts
    dsimp only
    unfold SiaFile.saveHeaderOp
    dsimp only
    rw [saveHeader_fst, saveHeader_snd]
    dsimp only
    rw [← hTM]
    rw [hgO', if_pos rfl, ← hm1]
    simp only [List.nil_append]
    rw [createAndApplyTransaction_eq
      { sf0 with pubKeyTable := TM, staticMetadata := m1 } _ _ hdel]
    simp only [SiaFile.applyUpdates, happA0, happB0]
  · intro e he
    simp [keyMatches, List.any_eq_true]
  · show LoadSiaFile ((d0.write sf0.siaFilePath w1).write sf0.siaFilePath w2)
      sf0.siaFilePath
      = .ok { sf0 with pubKeyTable := TM, staticMetadata := m1 }
    rw [hload, heta]

/-- Witness for C6 at a concrete input. -/
theorem c6_update_used_hosts_witness :
    NewArgsWF [97] [98] [99] (.rsCode 1 1)
      ⟨[5], List.replicate 16 0, 0⟩ 1 0 0 ∧
    (∀ e ∈ List.replicate 2 stdEntry, e.WF ∧ e.publicKey.key.length = 32) ∧
    ∃ sf d, New [97] [98] [99] (.rsCode 1 1)
        ⟨[5], List.replicate 16 0, 0⟩ 1 0 0 = .ok (sf, d) ∧
    ∃ sf1 d1, SiaFile.UpdateUsedHosts
        { sf with pubKeyTable := List.replicate 2 stdEntry } d
        [⟨List.replicate 16 0, List.replicate 32 0⟩] = .ok (sf1, d1) ∧
      sf1.pubKeyTable = (List.replicate 2 stdEntry).map
        (fun (e : HostPublicKey) => { e with
          used := keyMatches [⟨List.replicate 16 0, List.replicate 32 0⟩]
            e.publicKey.key }) ∧
      (∀ e ∈ List.replicate 2 stdEntry,
        keyMatches [⟨List.replicate 16 0, List.replicate 32 0⟩]
            e.publicKey.key = true ↔
          e.publicKey.key ∈ ([⟨List.replicate 16 0, List.replicate 32 0⟩] :
            List SiaPublicKey).map SiaPublicKey.key) ∧
      LoadSiaFile d1 sf1.siaFilePath = .ok sf1 :=
  ⟨by decide, by decide,
    c6_update_used_hosts [97] [98] [99] (.rsCode 1 1)
      ⟨[5], List.replicate 16 0, 0⟩ 1 0 0 (by decide)
      (List.replicate 2 stdEntry)
      [⟨List.replicate 16 0, List.replicate 32 0⟩] (by decide) (by decide)⟩
